import Mathlib

/-!
# Verification of the orioledb sequential-scan engine (src/btree/scan.c)

This file is a shallow embedding of the sequential B-tree scan of
`src/btree/scan.c` together with theorems about it.

Conventions used throughout:
* machine integers become `Nat`; commit sequence numbers (`CommitSeqNo`)
  become the inductive `Csn` below, separating the normal monotone values
  from the special markers (`COMMITSEQNO_INPROGRESS`, frozen, ...);
* fallible code returns `Except ScanError`; the only error the scan code
  raises itself is `snapshotTooOld` (scan.c:155, scan.c:210);
* external collaborators that are not part of scan.c (find_page,
  o_btree_try_read_page, get_page_from_undo, o_find_tuple_version, the
  general-purpose iterator) are modelled from the spec as environment
  functions; everything else is translated from the source.
-/

set_option maxHeartbeats 1600000

/-- Commit sequence numbers.  `COMMITSEQNO_IS_NORMAL` holds exactly for
`Csn.normal`; `inProgress` is `COMMITSEQNO_INPROGRESS`, `frozen` stands for
the remaining special markers. -/
inductive Csn where
  | normal : Nat → Csn
  | inProgress : Csn
  | frozen : Csn
deriving DecidableEq, Repr

/-- `COMMITSEQNO_IS_NORMAL`. -/
def Csn.isNormal : Csn → Bool
  | .normal _ => true
  | _ => false

/-- The scan errors of scan.c.  `snapshotTooOld` is
`ERRCODE_SNAPSHOT_TOO_OLD` (scan.c:156, scan.c:211). -/
inductive ScanError where
  | snapshotTooOld
deriving DecidableEq, Repr

/-- One historical page image, as materialized from one undo record by
`get_page_from_undo`: its header commit marker (`header->csn`) and an
identifier of its contents. -/
structure HistPage where
  csn : Csn
  pid : Nat
deriving DecidableEq, Repr

/-- Loop guard of the undo walks: `COMMITSEQNO_IS_NORMAL(header->csn) &&
header->csn >= scan->snapshotCsn` (scan.c:150-151, scan.c:205-206), for a
normal snapshot `snap`. -/
def undoContinue (snap : Nat) : Csn → Bool
  | .normal n => decide (snap ≤ n)
  | _ => false

/-- The undo-chain walk of `load_first_historical_page` (scan.c:150-177):
starting from the commit marker `c` of the current image, while the guard
holds, check `UNDO_REC_EXISTS` and fetch the next older page image from the
undo chain.  `chain` lists the page versions still reachable through the
undo pointers (`UNDO_REC_EXISTS` fails exactly when it is exhausted, i.e.
the required record was reclaimed).  On success the returned list is the
sequence of images fetched, in fetch order; `[]` means the loop never ran
(`haveHistImg` stays false), otherwise the last element is the final
historical image. -/
def undoWalk (snap : Nat) : Csn → List HistPage → Except ScanError (List HistPage)
  | .normal n, chain =>
    if snap ≤ n then
      match chain with
      | [] => .error .snapshotTooOld
      | p :: rest => (undoWalk snap p.csn rest).map (fun l => p :: l)
    else .ok []
  | .inProgress, _ => .ok []
  | .frozen, _ => .ok []

/-- `load_first_historical_page` (scan.c:130-195) reduced to its undo walk:
the early return for a non-normal snapshot (scan.c:141-142) and the
reconstruction loop.  Result `.ok []` means `haveHistImg` remains `false`
and no undo record was fetched; `.ok l` with `l ≠ []` means `haveHistImg`
is `true` and the historical image is `l.getLast`. -/
def load_first_historical_page (snapshotCsn leafCsn : Csn)
    (chain : List HistPage) : Except ScanError (List HistPage) :=
  match snapshotCsn with
  | .normal snap => undoWalk snap leafCsn chain
  | _ => .ok []

/-- The snapshot token a sampling scan is created with:
`make_btree_sampling_scan` passes `COMMITSEQNO_INPROGRESS` (scan.c:958). -/
def make_btree_sampling_scan_snapshotCsn : Csn := Csn.inProgress

/-- The reconstruction loop as claim C3 words it: stop as soon as the
marker is `≤` the snapshot token (i.e. continue only while it is strictly
greater), everything else as in `undoWalk`. -/
def undoWalkClaim (snap : Nat) : Csn → List HistPage → Except ScanError (List HistPage)
  | .normal n, chain =>
    if snap < n then
      match chain with
      | [] => .error .snapshotTooOld
      | p :: rest => (undoWalkClaim snap p.csn rest).map (fun l => p :: l)
    else .ok []
  | .inProgress, _ => .ok []
  | .frozen, _ => .ok []

theorem undoWalk_nil_ge (snap n : Nat) (h : snap ≤ n) :
    undoWalk snap (.normal n) [] = .error .snapshotTooOld := by
  simp [undoWalk, h]

theorem undoWalk_cons_ge (snap n : Nat) (p : HistPage) (rest : List HistPage)
    (h : snap ≤ n) :
    undoWalk snap (.normal n) (p :: rest) =
      (undoWalk snap p.csn rest).map (fun l => p :: l) := by
  simp [undoWalk, h]

theorem undoWalk_stop (snap : Nat) (c : Csn) (chain : List HistPage)
    (h : undoContinue snap c = false) : undoWalk snap c chain = .ok [] := by
  cases c with
  | normal n =>
    simp only [undoContinue, decide_eq_false_iff_not, Nat.not_le] at h
    cases chain <;> simp [undoWalk, Nat.not_le.mpr h]
  | inProgress => cases chain <;> simp [undoWalk]
  | frozen => cases chain <;> simp [undoWalk]

/-- `undoWalk` raises `snapshotTooOld` exactly when every image in sight
keeps the loop alive: the initial marker is normal and `≥` the snapshot,
and so is the marker of every image in the remaining chain. -/
theorem undoWalk_error_iff (snap : Nat) (c : Csn) (chain : List HistPage) :
    undoWalk snap c chain = .error .snapshotTooOld ↔
      (undoContinue snap c = true ∧ ∀ p ∈ chain, undoContinue snap p.csn = true) := by
  induction chain generalizing c with
  | nil =>
    constructor
    · intro h
      by_cases hc : undoContinue snap c = true
      · exact ⟨hc, by simp⟩
      · rw [undoWalk_stop snap c [] (by simpa using hc)] at h
        simp at h
    · rintro ⟨hc, -⟩
      cases c with
      | normal n =>
        simp only [undoContinue, decide_eq_true_eq] at hc
        exact undoWalk_nil_ge snap n hc
      | inProgress => simp [undoContinue] at hc
      | frozen => simp [undoContinue] at hc
  | cons p rest ih =>
    constructor
    · intro h
      by_cases hc : undoContinue snap c = true
      · cases c with
        | normal n =>
          simp only [undoContinue, decide_eq_true_eq] at hc
          rw [undoWalk_cons_ge snap n p rest hc] at h
          cases hw : undoWalk snap p.csn rest with
          | ok l => rw [hw] at h; simp [Except.map] at h
          | error e =>
            rw [hw] at h
            cases e
            have hrec := (ih p.csn).mp hw
            refine ⟨by simp [undoContinue, hc], ?_⟩
            intro q hq
            rcases List.mem_cons.mp hq with hq | hq
            · subst hq; exact hrec.1
            · exact hrec.2 q hq
        | inProgress => simp [undoContinue] at hc
        | frozen => simp [undoContinue] at hc
      · rw [undoWalk_stop snap c _ (by simpa using hc)] at h
        simp at h
    · rintro ⟨hc, hall⟩
      cases c with
      | normal n =>
        simp only [undoContinue, decide_eq_true_eq] at hc
        rw [undoWalk_cons_ge snap n p rest hc]
        have : undoWalk snap p.csn rest = .error .snapshotTooOld :=
          (ih p.csn).mpr ⟨hall p (by simp), fun q hq => hall q (by simp [hq])⟩
        rw [this]
        rfl
      | inProgress => simp [undoContinue] at hc
      | frozen => simp [undoContinue] at hc

/-- On success, `undoWalk` fetched a prefix of the chain; the loop kept the
guard alive on the initial marker and on every fetched image except the
last one, and the final image (the last fetched one, or the initial image
if none was fetched) no longer satisfies the guard: its marker is either
not normal or strictly below the snapshot token. -/
theorem undoWalk_ok (snap : Nat) (c : Csn) (chain : List HistPage)
    (l : List HistPage) (h : undoWalk snap c chain = .ok l) :
    List.IsPrefix l chain ∧
      (l = [] → undoContinue snap c = false) ∧
      (l ≠ [] → undoContinue snap c = true) ∧
      ∀ q, l.getLast? = some q → undoContinue snap q.csn = false := by
  induction chain generalizing c l with
  | nil =>
    by_cases hc : undoContinue snap c = true
    · cases c with
      | normal n =>
        simp only [undoContinue, decide_eq_true_eq] at hc
        rw [undoWalk_nil_ge snap n hc] at h
        simp at h
      | inProgress => simp [undoContinue] at hc
      | frozen => simp [undoContinue] at hc
    · rw [undoWalk_stop snap c [] (by simpa using hc)] at h
      simp at h
      subst h
      exact ⟨List.nil_prefix, fun _ => by simpa using hc,
        fun hne => absurd rfl hne, fun q hq => by simp at hq⟩
  | cons p rest ih =>
    by_cases hc : undoContinue snap c = true
    · cases c with
      | normal n =>
        simp only [undoContinue, decide_eq_true_eq] at hc
        rw [undoWalk_cons_ge snap n p rest hc] at h
        cases hw : undoWalk snap p.csn rest with
        | error e => rw [hw] at h; simp [Except.map] at h
        | ok l2 =>
          rw [hw] at h
          simp [Except.map] at h
          subst h
          obtain ⟨hpre, hnil, hne2, hlast⟩ := ih p.csn l2 hw
          obtain ⟨t, ht⟩ := hpre
          refine ⟨⟨t, by rw [List.cons_append, ht]⟩, by simp,
            fun _ => by simp [undoContinue, hc], ?_⟩
          intro q hq
          cases l2 with
          | nil =>
            simp at hq
            subst hq
            simpa using hnil rfl
          | cons r rs =>
            rw [List.getLast?_cons_cons] at hq
            exact hlast q hq
      | inProgress => simp [undoContinue] at hc
      | frozen => simp [undoContinue] at hc
    · rw [undoWalk_stop snap c _ (by simpa using hc)] at h
      simp at h
      subst h
      exact ⟨List.nil_prefix, fun _ => by simpa using hc,
        fun hne => absurd rfl hne, fun q hq => by simp at hq⟩

/-- C3 counterexample: with snapshot token 5, a current leaf image whose
commit marker is exactly 5, and an empty undo chain, the code raises
SnapshotTooOld (its loop guard is `marker ≥ token`, scan.c:151), although
under the stop rule stated by the claim — stop as soon as the marker is
`≤` the token — reconstruction would stop at once, require no undo record,
and raise no error.  So the claim, as stated, is false at this input. -/
theorem C3_counterexample :
    load_first_historical_page (Csn.normal 5) (Csn.normal 5) [] =
        .error .snapshotTooOld ∧
      undoWalkClaim 5 (Csn.normal 5) [] = .ok [] :=
  ⟨rfl, rfl⟩

/-- C3 (amended: the loop stops once the marker is strictly below the
snapshot token, not `≤` it): historical page reconstruction repeatedly
fetches the undo record referenced by the current image while the image's
commit marker is normal and `≥` the snapshot token; it fails with
SnapshotTooOld exactly when the undo records run out while the guard still
holds, and it raises SnapshotTooOld only in that case; on success the
fetched images form a prefix of the undo chain and the final image's
marker is not normal or strictly below the token. -/
theorem C3_theorem (snap : Nat) (leafCsn : Csn) (chain : List HistPage) :
    (load_first_historical_page (.normal snap) leafCsn chain =
        .error .snapshotTooOld ↔
      (undoContinue snap leafCsn = true ∧
        ∀ p ∈ chain, undoContinue snap p.csn = true)) ∧
    (∀ l, load_first_historical_page (.normal snap) leafCsn chain = .ok l →
      List.IsPrefix l chain ∧
        (l = [] → undoContinue snap leafCsn = false) ∧
        (l ≠ [] → undoContinue snap leafCsn = true) ∧
        ∀ q, l.getLast? = some q → undoContinue snap q.csn = false) := by
  constructor
  · simpa [load_first_historical_page] using undoWalk_error_iff snap leafCsn chain
  · intro l h
    exact undoWalk_ok snap leafCsn chain l (by simpa [load_first_historical_page] using h)

theorem C3_theorem_witness :
    List.IsPrefix [HistPage.mk (Csn.normal 3) 0] [HistPage.mk (Csn.normal 3) 0] ∧
      (([HistPage.mk (Csn.normal 3) 0] : List HistPage) = [] →
        undoContinue 5 (Csn.normal 7) = false) ∧
      (([HistPage.mk (Csn.normal 3) 0] : List HistPage) ≠ [] →
        undoContinue 5 (Csn.normal 7) = true) ∧
      ∀ q, ([HistPage.mk (Csn.normal 3) 0] : List HistPage).getLast? = some q →
        undoContinue 5 q.csn = false :=
  (C3_theorem 5 (Csn.normal 7) [⟨Csn.normal 3, 0⟩]).2 [⟨Csn.normal 3, 0⟩] rfl

/-- C10: for a scan whose snapshot token is not normal — in particular a
sampling scan, which `make_btree_sampling_scan` creates with
`COMMITSEQNO_INPROGRESS` (scan.c:958) — historical page reconstruction is a
no-op: `load_first_historical_page` returns immediately (scan.c:141-142),
fetching no undo record (result `.ok []`, so `haveHistImg` stays false) and
never raising SnapshotTooOld. -/
theorem C10_theorem (snapshotCsn leafCsn : Csn) (chain : List HistPage)
    (h : snapshotCsn.isNormal = false) :
    load_first_historical_page snapshotCsn leafCsn chain = .ok [] ∧
      load_first_historical_page make_btree_sampling_scan_snapshotCsn
        leafCsn chain = .ok [] := by
  cases snapshotCsn with
  | normal n => simp [Csn.isNormal] at h
  | inProgress => exact ⟨rfl, rfl⟩
  | frozen => exact ⟨rfl, rfl⟩

theorem C10_theorem_witness :
    load_first_historical_page Csn.inProgress (Csn.normal 9)
        [⟨Csn.normal 8, 0⟩] = .ok [] ∧
      load_first_historical_page make_btree_sampling_scan_snapshotCsn
        (Csn.normal 9) [⟨Csn.normal 8, 0⟩] = .ok [] :=
  C10_theorem Csn.inProgress (Csn.normal 9) [⟨Csn.normal 8, 0⟩] rfl

/-! ## The disk-downlink batcher (claim C4)

`add_on_disk_downlink` (scan.c:339-351) appends `(downlink, csn)` pairs to
the owned array; `switch_to_disk_scan` (scan.c:367-376) qsorts it with
`cmp_downlinks`; `load_next_disk_leaf_page` (scan.c:784-819) then consumes
`diskDownlinks[downlinkIndex]` and increments the index, so replay order is
exactly the sorted array order.  qsort is modelled by a comparator-driven
insertion sort: any comparator-correct sort yields a permutation of the
input that is pairwise non-descending under the comparator, which is what
the claims consume. -/

/-- One insertion step of the comparator-driven sort; `le a b` plays the
role of `cmp(a, b) <= 0`. -/
def insertLe {α : Type} (le : α → α → Bool) (x : α) : List α → List α
  | [] => [x]
  | y :: ys => if le x y then x :: y :: ys else y :: insertLe le x ys

/-- Comparator-driven sort modelling `qsort` (scan.c:372-375). -/
def sortLe {α : Type} (le : α → α → Bool) : List α → List α
  | [] => []
  | x :: xs => insertLe le x (sortLe le xs)

theorem insertLe_perm {α : Type} (le : α → α → Bool) (x : α) (l : List α) :
    (insertLe le x l).Perm (x :: l) := by
  induction l with
  | nil => simp [insertLe]
  | cons y ys ih =>
    simp only [insertLe]
    by_cases h : le x y
    · simp [h]
    · simp only [h, if_neg, Bool.false_eq_true, if_false]
      exact (List.Perm.cons y ih).trans (List.Perm.swap x y ys)

theorem sortLe_perm {α : Type} (le : α → α → Bool) (l : List α) :
    (sortLe le l).Perm l := by
  induction l with
  | nil => simp [sortLe]
  | cons x xs ih =>
    exact (insertLe_perm le x (sortLe le xs)).trans (List.Perm.cons x ih)

theorem insertLe_pairwise {α : Type} (le : α → α → Bool)
    (htot : ∀ a b, le a b = false → le b a = true)
    (x : α) (l : List α) (h : l.Pairwise (fun a b => le a b = true) )
    (htrans : ∀ a b c, le a b = true → le b c = true → le a c = true) :
    (insertLe le x l).Pairwise (fun a b => le a b = true) := by
  induction l with
  | nil => simp [insertLe]
  | cons y ys ih =>
    rcases List.pairwise_cons.mp h with ⟨hy, hys⟩
    simp only [insertLe]
    by_cases hxy : le x y
    · simp only [hxy, if_true]
      refine List.pairwise_cons.mpr ⟨?_, h⟩
      intro b hb
      rcases List.mem_cons.mp hb with hb | hb
      · subst hb; exact hxy
      · exact htrans x y b hxy (hy b hb)
    · simp only [hxy, Bool.false_eq_true, if_false]
      refine List.pairwise_cons.mpr ⟨?_, ih hys⟩
      intro b hb
      have hb2 := (insertLe_perm le x ys).mem_iff.mp hb
      rcases List.mem_cons.mp hb2 with hb2 | hb2
      · subst hb2
        exact htot _ _ (by simpa using hxy)
      · exact hy b hb2

theorem sortLe_pairwise {α : Type} (le : α → α → Bool)
    (htot : ∀ a b, le a b = false → le b a = true)
    (htrans : ∀ a b c, le a b = true → le b c = true → le a c = true)
    (l : List α) :
    (sortLe le l).Pairwise (fun a b => le a b = true) := by
  induction l with
  | nil => simp [sortLe]
  | cons x xs ih => exact insertLe_pairwise le htot x (sortLe le xs) ih htrans

/-- `BTreeSeqScanDiskDownlink` (scan.c:53-57). -/
structure BTreeSeqScanDiskDownlink where
  downlink : Nat
  csn : Nat
deriving DecidableEq, Repr

/-- `cmp_downlinks` (scan.c:353-365): compares only the raw downlink
values. -/
def cmp_downlinks (p1 p2 : BTreeSeqScanDiskDownlink) : Int :=
  if p1.downlink < p2.downlink then -1
  else if p1.downlink = p2.downlink then 0
  else 1

/-- The qsort call of `switch_to_disk_scan` (scan.c:372-375). -/
def sort_downlinks (l : List BTreeSeqScanDiskDownlink) :
    List BTreeSeqScanDiskDownlink :=
  sortLe (fun a b => decide (cmp_downlinks a b ≤ 0)) l

theorem cmp_downlinks_le_iff (a b : BTreeSeqScanDiskDownlink) :
    cmp_downlinks a b ≤ 0 ↔ a.downlink ≤ b.downlink := by
  unfold cmp_downlinks
  by_cases h1 : a.downlink < b.downlink
  · simp [h1]
    omega
  · by_cases h2 : a.downlink = b.downlink
    · simp [h1, h2]
    · simp [h1, h2]
      omega

/-! ## Checkpoint-pin accounting (claim C2)

`make_btree_seq_scan_internal` registers the scan in `listOfScans` and pins
the current checkpoint generation with an atomic increment of
`metaPageBlkno->numSeqScans[checkpointNumber % NUM_SEQ_SCANS_ARRAY_SIZE]`
inside a recheck-retry loop (scan.c:898-923); `free_btree_seq_scan`
(scan.c:1416-1428) unregisters and decrements; `seq_scans_cleanup`
(scan.c:1435-1456), the abnormal-termination sweep, walks all still
registered scans — but decrements the pin only for scans with no parallel
descriptor (`if (!scan->poscan)`, scan.c:1445, marked `TODO cleanup after
parallel scan`). -/

/-- Pointwise update of the abstract `numSeqScans` counter array. -/
def bumpCtr (c : Nat → Int) (i : Nat) (d : Int) : Nat → Int :=
  fun j => if j = i then c j + d else c j

/-- The recheck-retry pin loop (scan.c:909-922).  `SZ` is
`NUM_SEQ_SCANS_ARRAY_SIZE`, `before` the checkpoint number read before the
loop, `obs` the successive re-reads of `get_cur_checkpoint_number`: each
iteration increments slot `before % SZ`, re-reads, and keeps the pin if the
number did not move, otherwise reverts the increment and retries.  `none`
models the (unbounded) case that the observation stream was exhausted
before two consecutive reads agreed.  On success it returns the final
counter array together with `scan->checkpointNumber`. -/
def pinCheckpointLoop (SZ : Nat) (ctr : Nat → Int) (before : Nat) :
    List Nat → Option ((Nat → Int) × Nat)
  | [] => none
  | a :: rest =>
    let c1 := bumpCtr ctr (before % SZ) 1
    if a = before then some (c1, before)
    else pinCheckpointLoop SZ (bumpCtr c1 (before % SZ) (-1)) a rest

/-- A scan registered in `listOfScans`, reduced to the fields the pin
accounting reads: its pinned checkpoint number and whether it was created
with a parallel descriptor (`scan->poscan != NULL`). -/
structure RegisteredScan where
  checkpointNumber : Nat
  isParallel : Bool
deriving DecidableEq, Repr

/-- `free_btree_seq_scan` (scan.c:1416-1428): the normal teardown always
releases the pin. -/
def free_btree_seq_scan (SZ : Nat) (s : RegisteredScan)
    (ctr : Nat → Int) : Nat → Int :=
  bumpCtr ctr (s.checkpointNumber % SZ) (-1)

/-- `seq_scans_cleanup` (scan.c:1435-1456): the abnormal-termination sweep
empties `listOfScans`; it reverts `numSeqScans` only for scans without a
parallel descriptor (scan.c:1445-1450). -/
def seq_scans_cleanup (SZ : Nat) (scans : List RegisteredScan)
    (ctr : Nat → Int) : Nat → Int :=
  match scans with
  | [] => ctr
  | s :: rest =>
    seq_scans_cleanup SZ rest
      (if s.isParallel then ctr else bumpCtr ctr (s.checkpointNumber % SZ) (-1))

theorem bumpCtr_cancel (c : Nat → Int) (i : Nat) (j : Nat) :
    bumpCtr (bumpCtr c i 1) i (-1) j = c j := by
  unfold bumpCtr
  by_cases h : j = i <;> simp [h]

/-- On success the retry loop nets exactly one increment, on the slot of
the checkpoint number it returns. -/
theorem pinCheckpointLoop_ok (SZ : Nat) (ctr : Nat → Int) (before : Nat)
    (obs : List Nat) (c1 : Nat → Int) (cp : Nat)
    (h : pinCheckpointLoop SZ ctr before obs = some (c1, cp)) :
    ∀ j, c1 j = ctr j + (if j = cp % SZ then 1 else 0) := by
  induction obs generalizing ctr before with
  | nil => simp [pinCheckpointLoop] at h
  | cons a rest ih =>
    simp only [pinCheckpointLoop] at h
    by_cases ha : a = before
    · rw [if_pos ha] at h
      have hpair := Option.some.inj h
      have h1 : bumpCtr ctr (before % SZ) 1 = c1 := congrArg Prod.fst hpair
      have h2 : before = cp := congrArg Prod.snd hpair
      subst h1 h2
      intro j
      unfold bumpCtr
      by_cases hj : j = before % SZ <;> simp [hj]
    · rw [if_neg ha] at h
      intro j
      have hrec := ih (bumpCtr (bumpCtr ctr (before % SZ) 1) (before % SZ) (-1)) a h j
      rwa [bumpCtr_cancel] at hrec

/-- C2 (code bug): a scan created with a parallel descriptor pins the
checkpoint generation at creation, but the abnormal-termination sweep
removes it from the registry without releasing the pin.  Concretely: with
`NUM_SEQ_SCANS_ARRAY_SIZE = 4`, an all-zero counter array, checkpoint
number 1 observed stably, registration leaves slot `1 % 4` at 1; sweeping a
still-registered parallel scan pinned to checkpoint 1 leaves the slot at 1
instead of restoring the pre-scan value 0 — while the same sweep does
restore 0 for the identical non-parallel scan. -/
theorem C2_theorem :
    (pinCheckpointLoop 4 (fun _ => 0) 1 [1]).map
        (fun r => (r.1 (1 % 4), r.2)) = some (1, 1) ∧
      seq_scans_cleanup 4 [⟨1, true⟩]
        (bumpCtr (fun _ => 0) (1 % 4) 1) (1 % 4) = 1 ∧
      seq_scans_cleanup 4 [⟨1, false⟩]
        (bumpCtr (fun _ => 0) (1 % 4) 1) (1 % 4) = 0 := by
  refine ⟨rfl, rfl, rfl⟩

/-- Balance for non-parallel scans (the part of the claim the code does
satisfy): registration nets one increment and the sweep of a non-parallel
scan reverts exactly it, restoring every slot of the counter. -/
theorem seq_scans_cleanup_restores (SZ : Nat) (ctr : Nat → Int)
    (before cp : Nat) (obs : List Nat) (c1 : Nat → Int)
    (h : pinCheckpointLoop SZ ctr before obs = some (c1, cp)) :
    ∀ j, seq_scans_cleanup SZ [⟨cp, false⟩] c1 j = ctr j := by
  intro j
  have hc := pinCheckpointLoop_ok SZ ctr before obs c1 cp h j
  unfold seq_scans_cleanup seq_scans_cleanup bumpCtr
  simp only []
  by_cases hj : j = cp % SZ <;> simp [hj] at hc ⊢ <;> omega

/-! ## Key-skip fast-forward (claim C9)

`adjust_location_with_next_key` (scan.c:986-1040) fast-forwards one page
cursor to the key `scan->nextKey` that the key-skip callback requested: it
first compares the current entry (scan.c:998-1005), then skips whole chunks
whose hikey is `≤ nextKey` (scan.c:1007-1024), then advances item by item
while the entry key is `< nextKey` (scan.c:1026-1037).  `apply_next_key`
(scan.c:1042-1107) invokes it on both the current-leaf cursor and the
historical cursor (scan.c:1088-1095).  Pages are modelled with their chunk
structure; a leaf tuple is reduced to its key. -/

/-- One page chunk: its leaf-tuple keys and its chunk hikey
(`chunkDesc[...]`, read at scan.c:1012-1013). -/
structure PageChunk where
  items : List Nat
  hikey : Nat
deriving DecidableEq, Repr

/-- A chunked leaf page. -/
structure ChunkedPage where
  chunks : List PageChunk
deriving DecidableEq, Repr

/-- `BTreePageItemLocator` reduced to the fields the code uses here. -/
structure ChunkLoc where
  chunkOffset : Nat
  itemOffset : Nat
deriving DecidableEq, Repr

/-- The key under the locator; `none` iff `BTREE_PAGE_LOCATOR_IS_VALID`
fails. -/
def getKeyAt (p : ChunkedPage) (loc : ChunkLoc) : Option Nat :=
  (p.chunks[loc.chunkOffset]?).bind (fun c => c.items[loc.itemOffset]?)

/-- `BTREE_PAGE_LOCATOR_NEXT`: advance to the next item, moving to the
start of the next chunk at a chunk boundary. -/
def locNext (p : ChunkedPage) (loc : ChunkLoc) : ChunkLoc :=
  match p.chunks[loc.chunkOffset]? with
  | none => ⟨loc.chunkOffset + 1, 0⟩
  | some c =>
    if loc.itemOffset + 1 < c.items.length then
      ⟨loc.chunkOffset, loc.itemOffset + 1⟩
    else ⟨loc.chunkOffset + 1, 0⟩

/-- All keys on the page from the locator position (inclusive) to the end
of the page. -/
def keysFrom (p : ChunkedPage) (loc : ChunkLoc) : List Nat :=
  match p.chunks.drop loc.chunkOffset with
  | [] => []
  | c :: rest => c.items.drop loc.itemOffset ++ (rest.map PageChunk.items).flatten

/-- Page well-formedness: no chunk is empty, and every key of a chunk is
strictly below the chunk's hikey (hikeys are exclusive upper bounds). -/
def chunksWF (p : ChunkedPage) : Bool :=
  p.chunks.all (fun c => !c.items.isEmpty && c.items.all (fun x => decide (x < c.hikey)))

/-- The locator either sees an item or nothing remains after it. -/
def LocOk (p : ChunkedPage) (loc : ChunkLoc) : Prop :=
  getKeyAt p loc = none → keysFrom p loc = []

theorem keysFrom_step (p : ChunkedPage) (loc : ChunkLoc) (key : Nat)
    (h : getKeyAt p loc = some key) :
    keysFrom p loc = key :: keysFrom p (locNext p loc) := by
  unfold getKeyAt at h
  cases hc : p.chunks[loc.chunkOffset]? with
  | none => rw [hc] at h; simp at h
  | some c =>
    rw [hc, Option.some_bind] at h
    obtain ⟨hlt, hv⟩ := List.getElem?_eq_some.mp h
    have hclt : loc.chunkOffset < p.chunks.length := (List.getElem?_eq_some.mp hc).1
    have hdrop : p.chunks.drop loc.chunkOffset =
        c :: p.chunks.drop (loc.chunkOffset + 1) := by
      rw [List.drop_eq_getElem_cons hclt]
      congr 1
      exact (List.getElem?_eq_some.mp hc).2
    have hidrop : c.items.drop loc.itemOffset =
        key :: c.items.drop (loc.itemOffset + 1) := by
      rw [List.drop_eq_getElem_cons hlt]
      congr 1
    simp only [locNext, hc]
    by_cases hnext : loc.itemOffset + 1 < c.items.length
    · rw [if_pos hnext]
      unfold keysFrom
      simp only [hdrop]
      rw [hidrop]
      simp
    · rw [if_neg hnext]
      have hdone : c.items.drop (loc.itemOffset + 1) = [] :=
        List.drop_eq_nil_of_le (by omega)
      unfold keysFrom
      simp only [hdrop]
      rw [hidrop, hdone]
      cases hr : p.chunks.drop (loc.chunkOffset + 1) with
      | nil => simp
      | cons c2 rest2 => simp

theorem keysFrom_head (p : ChunkedPage) (loc : ChunkLoc) (key : Nat)
    (h : getKeyAt p loc = some key) : (keysFrom p loc).head? = some key := by
  rw [keysFrom_step p loc key h]
  rfl

theorem chunksWF_spec (p : ChunkedPage) (hwf : chunksWF p = true)
    (co : Nat) (c : PageChunk) (hc : p.chunks[co]? = some c) :
    c.items ≠ [] ∧ ∀ x ∈ c.items, x < c.hikey := by
  have hmem : c ∈ p.chunks := by
    obtain ⟨hlt, hv⟩ := List.getElem?_eq_some.mp hc
    exact hv ▸ List.getElem_mem hlt
  unfold chunksWF at hwf
  have hone := List.all_eq_true.mp hwf c hmem
  simp only [Bool.and_eq_true, Bool.not_eq_true', List.isEmpty_eq_false,
    List.all_eq_true, decide_eq_true_eq] at hone
  exact hone

theorem locOk_chunk_start (p : ChunkedPage) (hwf : chunksWF p = true)
    (co : Nat) : LocOk p ⟨co, 0⟩ := by
  intro hnone
  unfold getKeyAt at hnone
  cases hc : p.chunks[co]? with
  | some c =>
    rw [hc, Option.some_bind] at hnone
    have hne := (chunksWF_spec p hwf co c hc).1
    rw [List.getElem?_eq_none_iff] at hnone
    have hn2 : c.items.length ≤ 0 := hnone
    exact absurd (List.eq_nil_of_length_eq_zero (by omega)) hne
  | none =>
    have hge : p.chunks.length ≤ co := List.getElem?_eq_none_iff.mp hc
    unfold keysFrom
    rw [List.drop_eq_nil_of_le hge]

theorem locOk_valid (p : ChunkedPage) (loc : ChunkLoc) (key : Nat)
    (h : getKeyAt p loc = some key) : LocOk p loc :=
  fun hnone => absurd (hnone ▸ h) (by simp)

theorem locOk_locNext (p : ChunkedPage) (hwf : chunksWF p = true)
    (loc : ChunkLoc) (key : Nat) (h : getKeyAt p loc = some key) :
    LocOk p (locNext p loc) := by
  unfold getKeyAt at h
  cases hc : p.chunks[loc.chunkOffset]? with
  | none => rw [hc] at h; simp at h
  | some c =>
    rw [hc, Option.some_bind] at h
    simp only [locNext, hc]
    by_cases hnext : loc.itemOffset + 1 < c.items.length
    · rw [if_pos hnext]
      intro hnone
      unfold getKeyAt at hnone
      simp only [hc, Option.some_bind] at hnone
      rw [List.getElem?_eq_none_iff] at hnone
      omega
    · rw [if_neg hnext]
      exact locOk_chunk_start p hwf _

/-- The chunk-skipping loop of `adjust_location_with_next_key`
(scan.c:1007-1024): while not on the last chunk and the current chunk's
hikey is `≤ nextKey` (`cmp > 0` breaks), move to the start of the next
chunk; `none` models `page_locator_next_chunk` failing (the locator is
invalidated and the function returns false, scan.c:1019-1023). -/
def adjustChunkSkip (p : ChunkedPage) (k : Nat) (loc : ChunkLoc) :
    Option ChunkLoc :=
  if loc.chunkOffset = p.chunks.length - 1 then some loc
  else
    match p.chunks[loc.chunkOffset]? with
    | none => some loc
    | some c =>
      if k < c.hikey then some loc
      else if h2 : loc.chunkOffset + 1 < p.chunks.length then
        adjustChunkSkip p k ⟨loc.chunkOffset + 1, 0⟩
      else none
termination_by p.chunks.length - loc.chunkOffset
decreasing_by omega

/-- The final linear advance of `adjust_location_with_next_key`
(scan.c:1026-1037): step the locator while the entry key is `< nextKey`;
report `true` on an exact hit, stop (returning `false`) at the first entry
`> nextKey` or when the locator runs off the page. -/
def adjustLinear (p : ChunkedPage) (k : Nat) (loc : ChunkLoc) :
    ChunkLoc × Bool :=
  match h : getKeyAt p loc with
  | none => (loc, false)
  | some key =>
    if key = k then (loc, true)
    else if k < key then (loc, false)
    else adjustLinear p k (locNext p loc)
termination_by (keysFrom p loc).length
decreasing_by simp [keysFrom_step p loc _ h]

/-- `adjust_location_with_next_key` (scan.c:986-1040): initial compare of
the current entry against `nextKey` (scan.c:995-1005), then the chunk skip,
then the linear advance. -/
def adjust_location_with_next_key (p : ChunkedPage) (k : Nat)
    (loc : ChunkLoc) : ChunkLoc × Bool :=
  match getKeyAt p loc with
  | none => (loc, false)
  | some key =>
    if key = k then (loc, true)
    else if k < key then (loc, false)
    else
      match adjustChunkSkip p k loc with
      | none => (⟨p.chunks.length, 0⟩, false)
      | some loc1 => adjustLinear p k loc1

/-- The fast-forward of `apply_next_key` (scan.c:1088-1095): adjust the
current-leaf cursor and, when a historical image is active, the historical
cursor, both to the callback-requested key. -/
def apply_next_key_adjust (pl : ChunkedPage) (locl : ChunkLoc)
    (ph : ChunkedPage) (loch : ChunkLoc) (k : Nat) :
    (ChunkLoc × Bool) × (ChunkLoc × Bool) :=
  (adjust_location_with_next_key pl k locl,
   adjust_location_with_next_key ph k loch)

/-- What claim C9 asks of one fast-forwarded cursor: only keys `< k` are
passed over, the final position (if valid) holds a key `≥ k` and is
reported as an exact hit via the Bool exactly when its key is `k`, and an
invalid final position means no key at all remained at or after the start
position. -/
def AdjustSpec (p : ChunkedPage) (k : Nat) (loc : ChunkLoc)
    (res : ChunkLoc × Bool) : Prop :=
  (∃ passed, keysFrom p loc = passed ++ keysFrom p res.1 ∧
    ∀ x ∈ passed, x < k) ∧
  LocOk p res.1 ∧
  (res.2 = true ↔ getKeyAt p res.1 = some k) ∧
  (∀ k2, getKeyAt p res.1 = some k2 → k ≤ k2)

theorem getKeyAt_some_chunk (p : ChunkedPage) (loc : ChunkLoc) (key : Nat)
    (h : getKeyAt p loc = some key) :
    ∃ c, p.chunks[loc.chunkOffset]? = some c ∧
      c.items[loc.itemOffset]? = some key := by
  unfold getKeyAt at h
  cases hc : p.chunks[loc.chunkOffset]? with
  | none => rw [hc] at h; simp at h
  | some c => rw [hc, Option.some_bind] at h; exact ⟨c, rfl, h⟩

theorem getKeyAt_chunk_start (p : ChunkedPage) (hwf : chunksWF p = true)
    (co : Nat) (hlt : co < p.chunks.length) :
    ∃ key, getKeyAt p ⟨co, 0⟩ = some key := by
  have hc : p.chunks[co]? = some p.chunks[co] :=
    List.getElem?_eq_some.mpr ⟨hlt, rfl⟩
  have hne := (chunksWF_spec p hwf co p.chunks[co] hc).1
  cases hi : p.chunks[co].items with
  | nil => exact absurd hi hne
  | cons x xs =>
    refine ⟨x, ?_⟩
    unfold getKeyAt
    rw [hc, Option.some_bind, hi]
    simp

theorem keysFrom_chunk_split (p : ChunkedPage) (co io : Nat) (c : PageChunk)
    (hc : p.chunks[co]? = some c) :
    keysFrom p ⟨co, io⟩ = c.items.drop io ++ keysFrom p ⟨co + 1, 0⟩ := by
  have hclt := (List.getElem?_eq_some.mp hc).1
  have hdrop : p.chunks.drop co = c :: p.chunks.drop (co + 1) := by
    rw [List.drop_eq_getElem_cons hclt]
    congr 1
    exact (List.getElem?_eq_some.mp hc).2
  unfold keysFrom
  simp only [hdrop]
  cases hr : p.chunks.drop (co + 1) with
  | nil => simp
  | cons c2 rest2 => simp

theorem adjustChunkSkip_spec (p : ChunkedPage) (hwf : chunksWF p = true)
    (k : Nat) : ∀ m loc key0, p.chunks.length - loc.chunkOffset = m →
      getKeyAt p loc = some key0 →
      ∃ loc1 key1, adjustChunkSkip p k loc = some loc1 ∧
        getKeyAt p loc1 = some key1 ∧
        ∃ passed, keysFrom p loc = passed ++ keysFrom p loc1 ∧
          ∀ x ∈ passed, x < k := by
  intro m
  induction m with
  | zero =>
    intro loc key0 hm h0
    obtain ⟨c, hc, -⟩ := getKeyAt_some_chunk p loc key0 h0
    have hclt := (List.getElem?_eq_some.mp hc).1
    omega
  | succ m ih =>
    intro loc key0 hm h0
    obtain ⟨c, hc, hi⟩ := getKeyAt_some_chunk p loc key0 h0
    have hclt := (List.getElem?_eq_some.mp hc).1
    by_cases hlast : loc.chunkOffset = p.chunks.length - 1
    · refine ⟨loc, key0, ?_, h0, [], by simp, by simp⟩
      rw [adjustChunkSkip]
      rw [if_pos hlast]
    · have h2 : loc.chunkOffset + 1 < p.chunks.length := by omega
      by_cases hik : k < c.hikey
      · refine ⟨loc, key0, ?_, h0, [], by simp, by simp⟩
        rw [adjustChunkSkip]
        rw [if_neg hlast]
        simp only [hc]
        rw [if_pos hik]
      · obtain ⟨key1, hk1⟩ := getKeyAt_chunk_start p hwf (loc.chunkOffset + 1) h2
        obtain ⟨loc1, key2, hrec, hval, passed2, hkeys2, hlt2⟩ :=
          ih ⟨loc.chunkOffset + 1, 0⟩ key1 (by simp; omega) hk1
        refine ⟨loc1, key2, ?_, hval,
          c.items.drop loc.itemOffset ++ passed2, ?_, ?_⟩
        · rw [adjustChunkSkip]
          rw [if_neg hlast]
          simp only [hc]
          rw [if_neg hik, dif_pos h2]
          exact hrec
        · have hsplit := keysFrom_chunk_split p loc.chunkOffset loc.itemOffset c hc
          rw [List.append_assoc, ← hkeys2]
          simpa using hsplit
        · intro x hx
          rcases List.mem_append.mp hx with hx | hx
          · have hmem : x ∈ c.items := List.mem_of_mem_drop hx
            have := (chunksWF_spec p hwf loc.chunkOffset c hc).2 x hmem
            omega
          · exact hlt2 x hx

theorem adjustLinear_none (p : ChunkedPage) (k : Nat) (loc : ChunkLoc)
    (h : getKeyAt p loc = none) : adjustLinear p k loc = (loc, false) := by
  rw [adjustLinear]
  split
  · rfl
  · rename_i key hkey
    rw [h] at hkey
    cases hkey

theorem adjustLinear_some (p : ChunkedPage) (k : Nat) (loc : ChunkLoc)
    (key : Nat) (h : getKeyAt p loc = some key) :
    adjustLinear p k loc =
      (if key = k then (loc, true)
       else if k < key then (loc, false)
       else adjustLinear p k (locNext p loc)) := by
  rw [adjustLinear]
  split
  · rename_i hkey
    rw [h] at hkey
    cases hkey
  · rename_i key2 hkey
    rw [h] at hkey
    cases hkey
    rfl

theorem adjustLinear_spec (p : ChunkedPage) (hwf : chunksWF p = true)
    (k : Nat) : ∀ n loc, (keysFrom p loc).length = n → LocOk p loc →
      AdjustSpec p k loc (adjustLinear p k loc) := by
  intro n
  induction n using Nat.strong_induction_on with
  | _ n ih =>
    intro loc hn hok
    cases h0 : getKeyAt p loc with
    | none =>
      rw [adjustLinear_none p k loc h0]
      exact ⟨⟨[], by simp, by simp⟩, hok, by simp [h0], fun k2 hk2 => by
        rw [h0] at hk2; cases hk2⟩
    | some key =>
      by_cases hk : key = k
      · rw [adjustLinear_some p k loc key h0, if_pos hk]
        exact ⟨⟨[], by simp, by simp⟩, locOk_valid p loc key h0,
          by simp [h0, hk], fun k2 hk2 => by
            rw [h0] at hk2
            cases hk2
            omega⟩
      · by_cases hlt : k < key
        · rw [adjustLinear_some p k loc key h0, if_neg hk, if_pos hlt]
          exact ⟨⟨[], by simp, by simp⟩, locOk_valid p loc key h0,
            by simp [h0]; omega, fun k2 hk2 => by
              rw [h0] at hk2
              cases hk2
              omega⟩
        · have hklt : key < k := by omega
          have hstep := keysFrom_step p loc key h0
          have hres : adjustLinear p k loc = adjustLinear p k (locNext p loc) := by
            rw [adjustLinear_some p k loc key h0, if_neg hk, if_neg (by omega)]
          have hlen : (keysFrom p (locNext p loc)).length < n := by
            rw [← hn, hstep]
            simp
          obtain ⟨⟨passed, hkeys, hplt⟩, hok2, hiff, hge⟩ :=
            ih _ hlen (locNext p loc) rfl (locOk_locNext p hwf loc key h0)
          rw [hres]
          refine ⟨⟨key :: passed, ?_, ?_⟩, hok2, hiff, hge⟩
          · rw [hstep, hkeys]
            simp
          · intro x hx
            rcases List.mem_cons.mp hx with hx | hx
            · omega
            · exact hplt x hx

theorem adjust_location_with_next_key_spec (p : ChunkedPage)
    (hwf : chunksWF p = true) (k : Nat) (loc : ChunkLoc) (hok : LocOk p loc) :
    AdjustSpec p k loc (adjust_location_with_next_key p k loc) := by
  cases h0 : getKeyAt p loc with
  | none =>
    have hres : adjust_location_with_next_key p k loc = (loc, false) := by
      simp only [adjust_location_with_next_key, h0]
    rw [hres]
    exact ⟨⟨[], by simp, by simp⟩, hok, by simp [h0], fun k2 hk2 => by
      rw [h0] at hk2; cases hk2⟩
  | some key =>
    by_cases hk : key = k
    · have hres : adjust_location_with_next_key p k loc = (loc, true) := by
        simp only [adjust_location_with_next_key, h0]
        rw [if_pos hk]
      rw [hres]
      exact ⟨⟨[], by simp, by simp⟩, locOk_valid p loc key h0,
        by simp [h0, hk], fun k2 hk2 => by
          rw [h0] at hk2
          cases hk2
          omega⟩
    · by_cases hlt : k < key
      · have hres : adjust_location_with_next_key p k loc = (loc, false) := by
          simp only [adjust_location_with_next_key, h0]
          rw [if_neg hk, if_pos hlt]
        rw [hres]
        exact ⟨⟨[], by simp, by simp⟩, locOk_valid p loc key h0,
          by simp [h0]; omega, fun k2 hk2 => by
            rw [h0] at hk2
            cases hk2
            omega⟩
      · obtain ⟨loc1, key1, hskip, hval1, passed1, hkeys1, hplt1⟩ :=
          adjustChunkSkip_spec p hwf k (p.chunks.length - loc.chunkOffset)
            loc key rfl h0
        have hres : adjust_location_with_next_key p k loc =
            adjustLinear p k loc1 := by
          simp only [adjust_location_with_next_key, h0]
          rw [if_neg hk, if_neg (by omega), hskip]
        obtain ⟨⟨passed2, hkeys2, hplt2⟩, hok2, hiff, hge⟩ :=
          adjustLinear_spec p hwf k (keysFrom p loc1).length loc1 rfl
            (locOk_valid p loc1 key1 hval1)
        rw [hres]
        refine ⟨⟨passed1 ++ passed2, ?_, ?_⟩, hok2, hiff, hge⟩
        · rw [hkeys1, hkeys2, List.append_assoc]
        · intro x hx
          rcases List.mem_append.mp hx with hx | hx
          · exact hplt1 x hx
          · exact hplt2 x hx

/-- C9: when the key-skip callback rewrites the proposed next key to `k`,
`apply_next_key` fast-forwards both the current-leaf cursor and the
historical cursor with `adjust_location_with_next_key`, and on each
well-formed page the fast-forward passes over exactly the entries with
keys `< k` (never one with key `≥ k`): the keys after the cursor split as
passed-over keys, all `< k`, followed by the keys from the final position;
any entry at the final position has key `≥ k` (reported as an exact hit
iff it is `k`), and if the final position is invalid then no entry at or
after the start position remained at all. -/
theorem C9_theorem (pl ph : ChunkedPage) (locl loch : ChunkLoc) (k : Nat)
    (hwl : chunksWF pl = true) (hwh : chunksWF ph = true)
    (hol : LocOk pl locl) (hoh : LocOk ph loch) :
    AdjustSpec pl k locl (apply_next_key_adjust pl locl ph loch k).1 ∧
      AdjustSpec ph k loch (apply_next_key_adjust pl locl ph loch k).2 :=
  ⟨adjust_location_with_next_key_spec pl hwl k locl hol,
   adjust_location_with_next_key_spec ph hwh k loch hoh⟩

theorem C9_theorem_witness :
    AdjustSpec ⟨[⟨[1, 2], 3⟩, ⟨[5, 7], 9⟩]⟩ 5 ⟨0, 0⟩
        (apply_next_key_adjust ⟨[⟨[1, 2], 3⟩, ⟨[5, 7], 9⟩]⟩ ⟨0, 0⟩
          ⟨[⟨[4, 6], 8⟩]⟩ ⟨0, 0⟩ 5).1 ∧
      AdjustSpec ⟨[⟨[4, 6], 8⟩]⟩ 5 ⟨0, 0⟩
        (apply_next_key_adjust ⟨[⟨[1, 2], 3⟩, ⟨[5, 7], 9⟩]⟩ ⟨0, 0⟩
          ⟨[⟨[4, 6], 8⟩]⟩ ⟨0, 0⟩ 5).2 :=
  C9_theorem ⟨[⟨[1, 2], 3⟩, ⟨[5, 7], 9⟩]⟩ ⟨[⟨[4, 6], 8⟩]⟩ ⟨0, 0⟩ ⟨0, 0⟩ 5
    (by decide) (by decide)
    (fun h => absurd h (by decide)) (fun h => absurd h (by decide))

/-! ## The scan state machine (claims C1, C5, C6, C7, C8)

The remaining claims concern the whole scan, so the scan state and its
driver loops are embedded as an explicit state machine over a static tree
environment.  Modelling decisions, in source order:

* the tree is static (the embedding has no concurrency): page reads by
  `o_btree_try_read_page`/`read_page_from_disk` succeed and deliver the
  environment's page for the downlink, and `find_page` — an external
  collaborator (btree/find.c) — is modelled from the spec (§4.1: "locate
  the next level-1 internal page in key order"), as the next page of
  `Env.intPages`, positioned at its first item, with the page's left bound
  (`context.lokey`) recorded as `IntPageM.lokey`;
* one scan state models a scan created by `make_btree_seq_scan`
  (cb = NULL, sampler = NULL, poscan = NULL), so `isRangeValid`,
  sampling, `getNextKey` callbacks and the parallel branches are the
  omitted dead branches of that configuration;
* `load_first_historical_page` / `load_next_historical_page` are studied
  in detail above; in the machine the undo log's content per leaf is the
  environment's `histAt`: the list of successive historical page images
  the undo walks produce for that leaf (empty = `haveHistImg` false;
  `.error` = the walk raises SnapshotTooOld; a later
  `load_next_historical_page` beyond the list raises SnapshotTooOld);
* the fallback iterator is external (btree/iterator.c): modelled from the
  spec (§6: "open an ordered iterator over [low,high) at a snapshot;
  fetch next; close") as the streams `iterOrd`/`iterRaw` of the
  environment for the bounds the scan passes;
* `o_find_tuple_version` is external (§6 "tuple resolver"): modelled as
  the predicate `visible`, the returned tuple being the slot itself;
* a `BTreePageItemLocator` into a page image becomes the list of the
  items at and after the locator; `BTREE_PAGE_LOCATOR_IS_VALID` is
  nonemptiness of that list;
* `uint64` downlinks with their `DOWNLINK_IS_*` bit tests become the sum
  type `Downlink` (the spec's §9 representation); the in-memory change
  count and the io lock number are payload the model does not read. -/

/-- A classified downlink: `DOWNLINK_IS_IN_MEMORY` / `DOWNLINK_IS_ON_DISK`
/ `DOWNLINK_IS_IN_IO` (scan.c:721-773). -/
inductive Downlink where
  | inMemory (blkno : Nat)
  | onDisk (addr : Nat)
  | pending (ionum : Nat)
deriving DecidableEq, Repr

/-- One physical leaf tuple slot: its key, an identity for the slot, the
`BTreeLeafTuphdr.deleted` flag (scan.c:1378) and whether
`XACT_INFO_OXID_IS_CURRENT(tuphdr->xactInfo)` holds (scan.c:1197). -/
structure Slot where
  key : Nat
  sid : Nat
  deleted : Bool
  curXact : Bool
deriving DecidableEq, Repr

/-- A leaf page image: its slots in key order and its hikey (`none` iff
`O_PAGE_IS(page, RIGHTMOST)`). -/
structure LeafPage where
  slots : List Slot
  hikey : Option Nat
deriving DecidableEq, Repr

/-- A level-1 internal page: its left bound (`context.lokey` after
`find_page` with `BTREE_PAGE_FIND_KEEP_LOKEY`; `none` iff leftmost), its
first downlink (whose key the code never reads: at `intStartOffset` the
key range low is `prevHikey`, scan.c:427-438), the remaining items as
(key, downlink) pairs, and its hikey (`none` iff rightmost). -/
structure IntPageM where
  lokey : Option Nat
  firstDl : Downlink
  rest : List (Nat × Downlink)
  hikey : Option Nat
deriving DecidableEq, Repr

/-- Which leaf image a page reference denotes. -/
inductive LeafRef where
  | mem (blkno : Nat)
  | dsk (addr : Nat)
  | root
deriving DecidableEq, Repr

/-- The static tree plus the external collaborators (see the section
comment).  `intPages = []` means the root itself is the single leaf page
(`rootLeaf` is then `leafAt .root`). -/
structure Env where
  intPages : List IntPageM
  leafAt : LeafRef → LeafPage
  histAt : LeafRef → Except ScanError (List LeafPage)
  iterOrd : Option Nat → Option Nat → List Slot
  iterRaw : Option Nat → Option Nat → List Slot
  visible : Slot → Bool

/-- `BTreeSeqScanStatus` (scan.c:46-51). -/
inductive BTreeSeqScanStatus where
  | inMemory
  | disk
  | finished
deriving DecidableEq, Repr

/-- The fallback iterator made by `scan_make_iterator` (scan.c:383-402):
its bounds (`iterEnd` is `hi`) and its not-yet-fetched output, as the
ordered stream (`o_btree_iterator_fetch`) and the raw stream
(`btree_iterate_raw`); per the raw contract the raw stream carries every
slot, a deleted one being returned as a null tuple with `end` false. -/
structure IterState where
  lo : Option Nat
  hi : Option Nat
  ordOut : List Slot
  rawOut : List Slot
deriving DecidableEq, Repr

/-- The loaded level-1 page of `scan->context.img`: the items from
`scan->intLoc` on (the head's `Option Nat` is its key range low:
`prevHikey` at `intStartOffset`, its own key later, scan.c:427-438) and
the page hikey. -/
structure CurIntPage where
  items : List (Option Nat × Downlink)
  hikey : Option Nat
deriving DecidableEq, Repr

/-- `struct BTreeSeqScan` (scan.c:59-123) reduced to the fields the
sequential-scan control flow reads. -/
structure ScanState where
  status : BTreeSeqScanStatus
  firstPageIsLoaded : Bool
  isSingleLeafPage : Bool
  remaining : List IntPageM
  curPage : Option CurIntPage
  prevHikey : Option Nat
  leafSlots : List Slot
  leafHikey : Option Nat
  haveHistImg : Bool
  histSlots : List Slot
  histHikey : Option Nat
  histQueue : List LeafPage
  iter : Option IterState
  diskDownlinks : List Nat
deriving DecidableEq, Repr

/-- Loading a leaf image and then `load_first_historical_page`
(scan.c:327-333, 747-749, 812-817): the leaf cursor is set to the first
slot and the historical state to the first image of the leaf's undo
outcome (none → `haveHistImg` false). -/
def loadLeafWithHist (env : Env) (r : LeafRef) (s : ScanState) :
    Except ScanError ScanState :=
  match env.histAt r with
  | .error e => .error e
  | .ok [] =>
    .ok {s with leafSlots := (env.leafAt r).slots,
                leafHikey := (env.leafAt r).hikey,
                haveHistImg := false, histSlots := [], histHikey := none,
                histQueue := []}
  | .ok (h :: hq) =>
    .ok {s with leafSlots := (env.leafAt r).slots,
                leafHikey := (env.leafAt r).hikey,
                haveHistImg := true, histSlots := h.slots,
                histHikey := h.hikey, histQueue := hq}

/-- `scan_make_iterator` (scan.c:383-402): open the fallback iterator over
[keyRangeLow, keyRangeHigh), invalidate the leaf cursor, drop the
historical image. -/
def scan_make_iterator (env : Env) (lo hi : Option Nat) (s : ScanState) :
    ScanState :=
  {s with iter := some ⟨lo, hi, env.iterOrd lo hi, env.iterRaw lo hi⟩,
          leafSlots := [], haveHistImg := false}

/-- The items of a freshly located internal page, with the key-range low
of the first item being `prevHikey` (scan.c:427-438). -/
def intPageItems (pv : Option Nat) (P : IntPageM) :
    List (Option Nat × Downlink) :=
  (pv, P.firstDl) :: P.rest.map (fun kd => (some kd.1, kd.2))

/-- `get_next_key` (scan.c:442-452): the next item's key, or the page
hikey past the last item (`none` when the page is rightmost). -/
def nextKeyOf (items : List (Option Nat × Downlink))
    (pageHikey : Option Nat) : Option Nat :=
  match items with
  | (k, _) :: _ => k
  | [] => pageHikey

/-- `load_next_internal_page` (scan.c:265-337), sequential case.  Computes
`prevHikey` as `int_page_hikey` of the current image (scan.c:238-250,
274-282), locates the next page (`find_page`, spec-modelled: the head of
the not-yet-visited suffix; when none remain and nothing was loaded, the
tree is a single leaf page — the level-0 branch, scan.c:324-335), and on
a level-1 page runs the left-bound check of scan.c:304-321: a left bound
different from `prevHikey` advances `intLoc` past the first item
(`get_next_key`) and opens the fallback iterator over
[prevHikey, corrected next key). -/
def load_next_internal_page (env : Env) (s : ScanState) :
    Except ScanError (ScanState × Bool) :=
  let pv : Option Nat :=
    if s.firstPageIsLoaded then
      match s.curPage with
      | some cp => cp.hikey
      | none => none
    else none
  match s.remaining with
  | [] =>
    if s.firstPageIsLoaded then .ok (s, false)
    else
      (loadLeafWithHist env .root
        {s with firstPageIsLoaded := true, prevHikey := pv,
                curPage := some ⟨[], none⟩}).map (fun s1 => (s1, false))
  | P :: rest =>
    let s1 : ScanState :=
      {s with firstPageIsLoaded := true, prevHikey := pv,
              remaining := rest,
              curPage := some ⟨intPageItems pv P, P.hikey⟩}
    match pv with
    | none => .ok (s1, true)
    | some pk =>
      if P.lokey = some pk then .ok (s1, true)
      else
        .ok (scan_make_iterator env (some pk)
              (nextKeyOf (intPageItems pv P).tail P.hikey)
              {s1 with curPage := some ⟨(intPageItems pv P).tail, P.hikey⟩},
             true)

/-- The (downlink, key range) triple `get_next_downlink` outputs
(scan.c:465-467). -/
structure DownlinkOut where
  keyRangeLow : Option Nat
  keyRangeHigh : Option Nat
  dlink : Downlink
deriving DecidableEq, Repr

theorem load_next_internal_page_remaining (env : Env) (s : ScanState)
    (P : IntPageM) (rest : List IntPageM) (hrem : s.remaining = P :: rest)
    (s1 : ScanState) (b : Bool)
    (h : load_next_internal_page env s = .ok (s1, b)) :
    s1.remaining = rest := by
  unfold load_next_internal_page at h
  rw [hrem] at h
  dsimp only at h
  split at h <;> (try split at h) <;>
    (simp only [scan_make_iterator, Except.ok.injEq, Prod.mk.injEq] at h
     rw [← h.1])

/-- Termination measure of the internal-page pass: items still to visit on
the current page plus the weight of the not-yet-loaded pages. -/
def intWeight (s : ScanState) : Nat :=
  (match s.curPage with
   | some cp => cp.items.length
   | none => 0) +
  (s.remaining.map (fun P => P.rest.length + 2)).sum

theorem load_next_internal_page_weight (env : Env) (s : ScanState)
    (s1 : ScanState) (b : Bool)
    (h : load_next_internal_page env s = .ok (s1, b)) :
    intWeight s1 ≤ intWeight s ∧
      (s.remaining ≠ [] → intWeight s1 < intWeight s) := by
  unfold load_next_internal_page at h
  cases hrem : s.remaining with
  | nil =>
    rw [hrem] at h
    dsimp only at h
    refine ⟨?_, fun hne => absurd rfl hne⟩
    split at h
    · simp only [Except.ok.injEq, Prod.mk.injEq] at h
      rw [← h.1]
    · unfold loadLeafWithHist at h
      split at h
      · simp [Except.map] at h
      · simp only [Except.map, Except.ok.injEq, Prod.mk.injEq] at h
        rw [← h.1]
        unfold intWeight
        rw [hrem]
        cases s.curPage <;> simp
      · simp only [Except.map, Except.ok.injEq, Prod.mk.injEq] at h
        rw [← h.1]
        unfold intWeight
        rw [hrem]
        cases s.curPage <;> simp
  | cons P rest =>
    rw [hrem] at h
    dsimp only at h
    have hstep : ∀ t : ScanState, t.remaining = rest →
        (∃ k, t.curPage = some ⟨intPageItems k P, P.hikey⟩) ∨
        (∃ k, t.curPage = some ⟨(intPageItems k P).tail, P.hikey⟩) →
        intWeight t ≤ intWeight s ∧ intWeight t < intWeight s := by
      intro t htr htc
      have hw : intWeight t ≤ (P.rest.length + 1) +
          (rest.map (fun Q => Q.rest.length + 2)).sum := by
        rcases htc with ⟨k, hc⟩ | ⟨k, hc⟩ <;>
          (unfold intWeight; rw [htr]; simp [hc, intPageItems])
      have hw2 : intWeight s ≥ (P.rest.length + 2) +
          (rest.map (fun Q => Q.rest.length + 2)).sum := by
        unfold intWeight
        rw [hrem]
        cases s.curPage <;> simp <;> omega
      omega
    have hfin : intWeight s1 ≤ intWeight s ∧ intWeight s1 < intWeight s := by
      split at h
      · simp only [Except.ok.injEq, Prod.mk.injEq] at h
        exact hstep s1 (by rw [← h.1]) (Or.inl ⟨_, by rw [← h.1]⟩)
      · split at h
        · simp only [Except.ok.injEq, Prod.mk.injEq] at h
          exact hstep s1 (by rw [← h.1]) (Or.inl ⟨_, by rw [← h.1]⟩)
        · simp only [scan_make_iterator, Except.ok.injEq, Prod.mk.injEq] at h
          exact hstep s1 (by rw [← h.1]) (Or.inr ⟨_, by rw [← h.1]⟩)
    exact ⟨hfin.1, fun _ => hfin.2⟩

/-- `get_next_downlink` (scan.c:465-642), sequential branch, the loop with
`pageIsLoaded = true`: emit the current item with its key range and
advance `intLoc` (`get_current_downlink_key` + `get_next_key`,
scan.c:496-505); on an exhausted rightmost page return false
(scan.c:507-508); otherwise reload (`pageIsLoaded = false`, scan.c:510)
and continue, a fallback iterator opened by the load preempting
(scan.c:492-493).  The `remaining = []` non-rightmost case cannot arise in
a consistent tree (the page has a hikey, so a successor exists). -/
def get_next_downlink_go (env : Env) (s : ScanState) :
    Except ScanError (ScanState × Option DownlinkOut) :=
  match s.curPage with
  | none => .ok (s, none)
  | some cp =>
    match cp.items with
    | it :: restItems =>
      .ok ({s with curPage := some ⟨restItems, cp.hikey⟩},
           some ⟨it.1, nextKeyOf restItems cp.hikey, it.2⟩)
    | [] =>
      if cp.hikey = none then .ok (s, none)
      else
        match hrem : s.remaining with
        | [] => .ok (s, none)
        | P :: rest =>
          match hload : load_next_internal_page env s with
          | .error e => .error e
          | .ok (s1, false) => .ok ({s1 with isSingleLeafPage := true}, none)
          | .ok (s1, true) =>
            if s1.iter.isSome then .ok (s1, none)
            else get_next_downlink_go env s1
termination_by s.remaining.length
decreasing_by
  rw [load_next_internal_page_remaining env s P rest hrem s1 true hload, hrem]
  simp

/-- `get_next_downlink` (scan.c:465-642), sequential branch, from the top:
when no page is loaded yet do the first load (scan.c:477-494): `false`
with `isSingleLeafPage` set means the single-leaf tree (scan.c:484-489). -/
def get_next_downlink (env : Env) (s : ScanState) :
    Except ScanError (ScanState × Option DownlinkOut) :=
  if s.firstPageIsLoaded then get_next_downlink_go env s
  else
    match load_next_internal_page env s with
    | .error e => .error e
    | .ok (s1, false) => .ok ({s1 with isSingleLeafPage := true}, none)
    | .ok (s1, true) =>
      if s1.iter.isSome then .ok (s1, none)
      else get_next_downlink_go env s1

theorem get_next_downlink_go_weight (env : Env) :
    ∀ m s s1 r, s.remaining.length = m →
      get_next_downlink_go env s = .ok (s1, r) →
      intWeight s1 ≤ intWeight s ∧ (r ≠ none → intWeight s1 < intWeight s) := by
  intro m
  induction m using Nat.strong_induction_on with
  | _ m ih =>
    intro s s1 r hm h
    rw [get_next_downlink_go] at h
    split at h
    · simp only [Except.ok.injEq, Prod.mk.injEq] at h
      rw [← h.1, ← h.2]
      exact ⟨Nat.le_refl _, fun hr => absurd rfl hr⟩
    · rename_i cp hcp
      split at h
      · rename_i it restItems hitems
        simp only [Except.ok.injEq, Prod.mk.injEq] at h
        constructor
        · rw [← h.1]
          unfold intWeight
          rw [hcp]
          simp [hitems]
        · intro hr
          rw [← h.1]
          unfold intWeight
          rw [hcp]
          simp [hitems]
      · split at h
        · simp only [Except.ok.injEq, Prod.mk.injEq] at h
          rw [← h.1, ← h.2]
          exact ⟨Nat.le_refl _, fun hr => absurd rfl hr⟩
        · split at h
          · simp only [Except.ok.injEq, Prod.mk.injEq] at h
            rw [← h.1, ← h.2]
            exact ⟨Nat.le_refl _, fun hr => absurd rfl hr⟩
          · rename_i P rest hrem
            split at h
            · cases h
            · rename_i s2 hload
              simp only [Except.ok.injEq, Prod.mk.injEq] at h
              have hle := load_next_internal_page_weight env s s2 false hload
              have hlt := hle.2 (by rw [hrem]; simp)
              constructor
              · rw [← h.1]
                have : intWeight {s2 with isSingleLeafPage := true} =
                    intWeight s2 := rfl
                omega
              · intro hr
                rw [← h.1]
                have : intWeight {s2 with isSingleLeafPage := true} =
                    intWeight s2 := rfl
                omega
            · rename_i s2 hload
              have hle := load_next_internal_page_weight env s s2 true hload
              have hlt := hle.2 (by rw [hrem]; simp)
              split at h
              · simp only [Except.ok.injEq, Prod.mk.injEq] at h
                rw [← h.1]
                exact ⟨by omega, fun hr => by omega⟩
              · have hrlen : s2.remaining = rest :=
                  load_next_internal_page_remaining env s P rest hrem s2 true hload
                have hrec := ih rest.length (by rw [← hm, hrem]; simp)
                  s2 s1 r (by rw [hrlen]) h
                exact ⟨by omega, fun hr => by omega⟩

theorem get_next_downlink_weight (env : Env) (s s1 : ScanState)
    (r : Option DownlinkOut) (h : get_next_downlink env s = .ok (s1, r)) :
    intWeight s1 ≤ intWeight s ∧ (r ≠ none → intWeight s1 < intWeight s) := by
  unfold get_next_downlink at h
  split at h
  · exact get_next_downlink_go_weight env s.remaining.length s s1 r rfl h
  · split at h
    · cases h
    · rename_i s2 hload
      have hle := load_next_internal_page_weight env s s2 false hload
      simp only [Except.ok.injEq, Prod.mk.injEq] at h
      constructor
      · rw [← h.1]
        have : intWeight {s2 with isSingleLeafPage := true} = intWeight s2 := rfl
        omega
      · intro hr
        rw [← h.2] at hr
        exact absurd rfl hr
    · rename_i s2 hload
      have hle := load_next_internal_page_weight env s s2 true hload
      split at h
      · simp only [Except.ok.injEq, Prod.mk.injEq] at h
        rw [← h.1, ← h.2]
        exact ⟨hle.1, fun hr => absurd rfl hr⟩
      · have hrec := get_next_downlink_go_weight env s2.remaining.length s2 s1 r rfl h
        exact ⟨by omega, fun hr => by have := hrec.2 hr; omega⟩

/-- `iterate_internal_page` (scan.c:691-782) for a scan with no callbacks
and no sampler (every downlink is valid, scan.c:698-717): on-disk
downlinks are batched (`add_on_disk_downlink`, scan.c:721-723); an
in-memory downlink is read (the static environment's read succeeds) and
checked by `check_in_memory_leaf_page` (scan.c:651-682: key range high
must equal the leaf hikey, null against null, else fall back to an
iterator over the item's key range); an io-in-progress downlink waits and
falls back to an iterator (scan.c:759-772); true is returned once a leaf
is loaded or an iterator was made (also by `get_next_downlink` itself,
scan.c:777-778). -/
def iterate_internal_page (env : Env) (s : ScanState) :
    Except ScanError (ScanState × Bool) :=
  match hgnd : get_next_downlink env s with
  | .error e => .error e
  | .ok (s1, none) => .ok (s1, s1.iter.isSome)
  | .ok (s1, some dlo) =>
    match dlo.dlink with
    | .onDisk a =>
      iterate_internal_page env
        {s1 with diskDownlinks := s1.diskDownlinks ++ [a]}
    | .inMemory b =>
      if dlo.keyRangeHigh = (env.leafAt (.mem b)).hikey then
        (loadLeafWithHist env (.mem b) s1).map (fun s2 => (s2, true))
      else
        .ok (scan_make_iterator env dlo.keyRangeLow dlo.keyRangeHigh s1, true)
    | .pending _ =>
      .ok (scan_make_iterator env dlo.keyRangeLow dlo.keyRangeHigh s1, true)
termination_by intWeight s
decreasing_by
  have hw := (get_next_downlink_weight env s s1 (some dlo) hgnd).2 (by simp)
  have heq : intWeight {s1 with diskDownlinks := s1.diskDownlinks ++ [a]} =
      intWeight s1 := rfl
  omega

/-- The comparator `a ≤ b` on raw downlink values, as
`cmp_downlinks(a,b) <= 0`. -/
def natLeB (a b : Nat) : Bool := decide (a ≤ b)

/-- `switch_to_disk_scan` (scan.c:367-376): move to the disk phase,
invalidate the leaf cursor, qsort the batched downlinks by raw value. -/
def switch_to_disk_scan (s : ScanState) : ScanState :=
  {s with status := .disk, leafSlots := [],
          diskDownlinks := sortLe natLeB s.diskDownlinks}

/-- `load_next_disk_leaf_page` (scan.c:784-819): consume
`diskDownlinks[downlinkIndex++]` (the head of the sorted remainder), read
the page (the static environment's read succeeds; the batched CSN's undo
roll-back is part of the environment's image), load the first historical
page. -/
def load_next_disk_leaf_page (env : Env) (s : ScanState) :
    Except ScanError (ScanState × Bool) :=
  match s.diskDownlinks with
  | [] => .ok (s, false)
  | a :: rest =>
    (loadLeafWithHist env (.dsk a) {s with diskDownlinks := rest}).map
      (fun s2 => (s2, true))

/-- The scan state as initialized by `make_btree_seq_scan_internal`
(scan.c:866-931) before `iterate_internal_page` runs. -/
def makeInitState (env : Env) : ScanState :=
  { status := .inMemory, firstPageIsLoaded := false, isSingleLeafPage := false,
    remaining := env.intPages, curPage := none, prevHikey := none,
    leafSlots := [], leafHikey := none, haveHistImg := false,
    histSlots := [], histHikey := none, histQueue := [],
    iter := none, diskDownlinks := [] }

/-- `make_btree_seq_scan_internal` (scan.c:830-940) for cb = NULL,
sampler = NULL, poscan = NULL, after pin registration (modelled
separately): run the first `iterate_internal_page`; if it produced nothing
and the tree is not a single leaf page, switch to the disk scan, and if
the batch is empty finish (scan.c:932-937). -/
def make_btree_seq_scan (env : Env) : Except ScanError ScanState :=
  match iterate_internal_page env (makeInitState env) with
  | .error e => .error e
  | .ok (s1, got) =>
    if !got && !s1.isSingleLeafPage then
      match load_next_disk_leaf_page env (switch_to_disk_scan s1) with
      | .error e => .error e
      | .ok (s2, ok2) =>
        .ok (if ok2 then s2 else {s2 with status := .finished})
    else .ok s1

/-- One loop iteration of a get-next driver: either the call returns
(`yield`, with the tuple the code returns and, as specification ghost
data, the physical slot the iteration consumed) or the loop continues
(`cont`). -/
inductive StepRes where
  | cont (s : ScanState)
  | yield (s : ScanState) (ret : Option Slot) (consumed : Option Slot)
deriving DecidableEq, Repr

def StepRes.state : StepRes → ScanState
  | .cont s => s
  | .yield s _ _ => s

/-- One loop iteration of `btree_seq_scan_getnext_raw_internal`
(scan.c:1327-1390) together with the end handling of its wrapper
`btree_seq_scan_getnext_raw` (scan.c:1392-1414): drain an active fallback
iterator first (scan.c:1334-1341, freed on end); otherwise return the
leaf item under `leafLoc`, advanced, a deleted one as a null tuple
(scan.c:1375-1389); on an exhausted leaf cursor run the in-memory pass /
switch to disk / load the next disk page / finish (scan.c:1343-1373); at
`Finished` the wrapper returns a null tuple with `end = true`. -/
def rawStep (env : Env) (s : ScanState) : Except ScanError StepRes :=
  match s.iter with
  | some it =>
    match it.rawOut with
    | x :: rest =>
      .ok (.yield {s with iter := some {it with rawOut := rest}}
        (if x.deleted then none else some x) (some x))
    | [] => .ok (.cont {s with iter := none})
  | none =>
    match s.leafSlots with
    | x :: rest =>
      .ok (.yield {s with leafSlots := rest}
        (if x.deleted then none else some x) (some x))
    | [] =>
      match s.status with
      | .inMemory =>
        match iterate_internal_page env s with
        | .error e => .error e
        | .ok (s1, true) => .ok (.cont s1)
        | .ok (s1, false) => .ok (.cont (switch_to_disk_scan s1))
      | .disk =>
        match load_next_disk_leaf_page env s with
        | .error e => .error e
        | .ok (s1, true) => .ok (.cont s1)
        | .ok (s1, false) => .ok (.yield {s1 with status := .finished} none none)
      | .finished => .ok (.yield s none none)

/-- The historical-merge inner loop of `btree_seq_scan_getnext_internal`
(scan.c:1124-1224) without callbacks: refill the historical cursor from
the undo chain while it is invalid (scan.c:1128-1151; deactivate on the
rightmost historical page or once the historical hikey reaches the leaf
hikey; a missing undo record in `load_next_historical_page` raises
SnapshotTooOld); against an exhausted leaf cursor deactivate once the
historical tuple reaches the leaf hikey (scan.c:1164-1179); against the
current leaf entry: a larger historical key breaks to the leaf path
(scan.c:1192-1193), on equal keys the scanning transaction's own leaf
entry wins (the historical entry is skipped, scan.c:1197-1201), otherwise
the current entry is skipped and the historical entry is resolved
(scan.c:1203-1205); a resolved visible historical tuple is returned
(scan.c:1209-1223). -/
def histPhase (env : Env) (s : ScanState) :
    Except ScanError (ScanState × Option Slot) :=
  if s.haveHistImg = false then .ok (s, none)
  else
    match hhs : s.histSlots with
    | [] =>
      match s.histHikey with
      | none => .ok ({s with haveHistImg := false}, none)
      | some hh =>
        match s.leafHikey with
        | some lh =>
          if lh ≤ hh then .ok ({s with haveHistImg := false}, none)
          else
            match hqq : s.histQueue with
            | [] => .error .snapshotTooOld
            | h :: hq =>
              histPhase env
                {s with histSlots := h.slots, histHikey := h.hikey,
                        histQueue := hq}
        | none =>
          match hqq : s.histQueue with
          | [] => .error .snapshotTooOld
          | h :: hq =>
            histPhase env
              {s with histSlots := h.slots, histHikey := h.hikey,
                      histQueue := hq}
    | ht :: hrest =>
      match s.leafSlots with
      | [] =>
        match s.leafHikey with
        | some lh =>
          if lh ≤ ht.key then .ok ({s with haveHistImg := false}, none)
          else
            if env.visible ht then .ok ({s with histSlots := hrest}, some ht)
            else histPhase env {s with histSlots := hrest}
        | none =>
          if env.visible ht then .ok ({s with histSlots := hrest}, some ht)
          else histPhase env {s with histSlots := hrest}
      | lt :: lrest =>
        if lt.key < ht.key then .ok (s, none)
        else if ht.key = lt.key then
          if lt.curXact then .ok ({s with histSlots := hrest}, none)
          else
            if env.visible ht then
              .ok ({s with leafSlots := lrest, histSlots := hrest}, some ht)
            else histPhase env {s with leafSlots := lrest, histSlots := hrest}
        else
          if env.visible ht then .ok ({s with histSlots := hrest}, some ht)
          else histPhase env {s with histSlots := hrest}
termination_by (s.histQueue.length, s.histSlots.length)
decreasing_by
  all_goals try simp only [hqq]
  all_goals try simp only [hhs]
  all_goals first
    | (apply Prod.Lex.left
       simp
       done)
    | (apply Prod.Lex.right
       simp
       done)

/-- One loop iteration of `btree_seq_scan_getnext_internal`
(scan.c:1109-1283) without callbacks, together with the end handling of
its wrapper `btree_seq_scan_getnext` (scan.c:1285-1303): drain an active
fallback iterator first (scan.c:1115-1120, freed on null); run the
historical merge; then resolve the current leaf entry (invisible versions
are skipped, scan.c:1263-1277), or on an exhausted leaf cursor run the
in-memory pass / switch to disk / load the next disk page / finish
(scan.c:1230-1260); at `Finished` the wrapper returns a null tuple. -/
def ordStep (env : Env) (s : ScanState) : Except ScanError StepRes :=
  match s.iter with
  | some it =>
    match it.ordOut with
    | x :: rest =>
      .ok (.yield {s with iter := some {it with ordOut := rest}}
        (some x) (some x))
    | [] => .ok (.cont {s with iter := none})
  | none =>
    match histPhase env s with
    | .error e => .error e
    | .ok (s1, some t) => .ok (.yield s1 (some t) (some t))
    | .ok (s1, none) =>
      match s1.leafSlots with
      | [] =>
        match s1.status with
        | .inMemory =>
          match iterate_internal_page env s1 with
          | .error e => .error e
          | .ok (s2, true) => .ok (.cont s2)
          | .ok (s2, false) => .ok (.cont (switch_to_disk_scan s2))
        | .disk =>
          match load_next_disk_leaf_page env s1 with
          | .error e => .error e
          | .ok (s2, true) => .ok (.cont s2)
          | .ok (s2, false) =>
            .ok (.yield {s2 with status := .finished} none none)
        | .finished => .ok (.yield s1 none none)
      | lt :: lrest =>
        if env.visible lt then
          .ok (.yield {s1 with leafSlots := lrest} (some lt) (some lt))
        else .ok (.cont {s1 with leafSlots := lrest})

/-- Iterate `rawStep` for `n` steps, collecting the (returned tuple,
consumed slot) pair of every yield. -/
def rawRun (env : Env) : Nat → ScanState →
    Except ScanError (List (Option Slot × Option Slot) × ScanState)
  | 0, s => .ok ([], s)
  | n + 1, s =>
    match rawStep env s with
    | .error e => .error e
    | .ok (.cont s1) => rawRun env n s1
    | .ok (.yield s1 ret cons) =>
      (rawRun env n s1).map (fun pr => ((ret, cons) :: pr.1, pr.2))

def statusIdx : BTreeSeqScanStatus → Nat
  | .inMemory => 0
  | .disk => 1
  | .finished => 2

theorem except_map_ok {α β : Type} (x : Except ScanError α) (f : α → β)
    (y : β) (h : x.map f = .ok y) : ∃ a, x = .ok a ∧ f a = y := by
  cases x with
  | error e => simp [Except.map] at h
  | ok a =>
    simp only [Except.map, Except.ok.injEq] at h
    exact ⟨a, rfl, h⟩

theorem iterate_gnd_none (env : Env) (s s1 : ScanState)
    (h : get_next_downlink env s = .ok (s1, none)) :
    iterate_internal_page env s = .ok (s1, s1.iter.isSome) := by
  rw [iterate_internal_page]
  split
  · rename_i e heq
    rw [h] at heq
    cases heq
  · rename_i s2 heq
    rw [h] at heq
    cases heq
    rfl
  · rename_i s2 dlo heq
    rw [h] at heq
    cases heq

theorem iterate_gnd_some (env : Env) (s s1 : ScanState) (dlo : DownlinkOut)
    (h : get_next_downlink env s = .ok (s1, some dlo)) :
    iterate_internal_page env s =
      (match dlo.dlink with
       | .onDisk a =>
         iterate_internal_page env
           {s1 with diskDownlinks := s1.diskDownlinks ++ [a]}
       | .inMemory b =>
         if dlo.keyRangeHigh = (env.leafAt (.mem b)).hikey then
           (loadLeafWithHist env (.mem b) s1).map (fun s2 => (s2, true))
         else
           .ok (scan_make_iterator env dlo.keyRangeLow dlo.keyRangeHigh s1,
             true)
       | .pending _ =>
         .ok (scan_make_iterator env dlo.keyRangeLow dlo.keyRangeHigh s1,
           true)) := by
  rw [iterate_internal_page]
  split
  · rename_i e heq
    rw [h] at heq
    cases heq
  · rename_i s2 heq
    rw [h] at heq
    cases heq
  · rename_i s2 dlo2 heq
    rw [h] at heq
    cases heq
    rfl

theorem loadLeafWithHist_fields (env : Env) (r : LeafRef) (s s1 : ScanState)
    (h : loadLeafWithHist env r s = .ok s1) :
    s1.status = s.status ∧ s1.firstPageIsLoaded = s.firstPageIsLoaded ∧
      s1.isSingleLeafPage = s.isSingleLeafPage ∧
      s1.remaining = s.remaining ∧ s1.curPage = s.curPage ∧
      s1.iter = s.iter ∧ s1.diskDownlinks = s.diskDownlinks ∧
      s1.leafSlots = (env.leafAt r).slots ∧
      s1.leafHikey = (env.leafAt r).hikey := by
  unfold loadLeafWithHist at h
  split at h
  · simp at h
  · simp only [Except.ok.injEq] at h
    rw [← h]
    exact ⟨rfl, rfl, rfl, rfl, rfl, rfl, rfl, rfl, rfl⟩
  · simp only [Except.ok.injEq] at h
    rw [← h]
    exact ⟨rfl, rfl, rfl, rfl, rfl, rfl, rfl, rfl, rfl⟩

theorem load_next_internal_page_status (env : Env) (s s1 : ScanState)
    (b : Bool) (h : load_next_internal_page env s = .ok (s1, b)) :
    s1.status = s.status := by
  unfold load_next_internal_page at h
  dsimp only at h
  split at h
  · split at h
    · simp only [Except.ok.injEq, Prod.mk.injEq] at h
      rw [← h.1]
    · obtain ⟨s2, hl, hf⟩ := except_map_ok _ _ _ h
      have := (loadLeafWithHist_fields env _ _ s2 hl).1
      simp only [Prod.mk.injEq] at hf
      rw [← hf.1, this]
  · split at h
    · simp only [Except.ok.injEq, Prod.mk.injEq] at h
      rw [← h.1]
    · split at h
      · simp only [Except.ok.injEq, Prod.mk.injEq] at h
        rw [← h.1]
      · simp only [scan_make_iterator, Except.ok.injEq, Prod.mk.injEq] at h
        rw [← h.1]

theorem get_next_downlink_go_status (env : Env) :
    ∀ m s s1 r, s.remaining.length = m →
      get_next_downlink_go env s = .ok (s1, r) → s1.status = s.status := by
  intro m
  induction m using Nat.strong_induction_on with
  | _ m ih =>
    intro s s1 r hm h
    rw [get_next_downlink_go] at h
    split at h
    · simp only [Except.ok.injEq, Prod.mk.injEq] at h
      rw [← h.1]
    · rename_i cp hcp
      split at h
      · simp only [Except.ok.injEq, Prod.mk.injEq] at h
        rw [← h.1]
      · split at h
        · simp only [Except.ok.injEq, Prod.mk.injEq] at h
          rw [← h.1]
        · split at h
          · simp only [Except.ok.injEq, Prod.mk.injEq] at h
            rw [← h.1]
          · rename_i P rest hrem
            split at h
            · cases h
            · rename_i s2 hload
              simp only [Except.ok.injEq, Prod.mk.injEq] at h
              rw [← h.1]
              exact load_next_internal_page_status env s s2 false hload
            · rename_i s2 hload
              split at h
              · simp only [Except.ok.injEq, Prod.mk.injEq] at h
                rw [← h.1]
                exact load_next_internal_page_status env s s2 true hload
              · have hrlen : s2.remaining = rest :=
                  load_next_internal_page_remaining env s P rest hrem s2 true hload
                have hrec := ih rest.length (by rw [← hm, hrem]; simp)
                  s2 s1 r (by rw [hrlen]) h
                rw [hrec]
                exact load_next_internal_page_status env s s2 true hload

theorem get_next_downlink_status (env : Env) (s s1 : ScanState)
    (r : Option DownlinkOut) (h : get_next_downlink env s = .ok (s1, r)) :
    s1.status = s.status := by
  unfold get_next_downlink at h
  split at h
  · exact get_next_downlink_go_status env s.remaining.length s s1 r rfl h
  · split at h
    · cases h
    · rename_i s2 hload
      simp only [Except.ok.injEq, Prod.mk.injEq] at h
      rw [← h.1]
      exact load_next_internal_page_status env s s2 false hload
    · rename_i s2 hload
      split at h
      · simp only [Except.ok.injEq, Prod.mk.injEq] at h
        rw [← h.1]
        exact load_next_internal_page_status env s s2 true hload
      · rw [get_next_downlink_go_status env s2.remaining.length s2 s1 r rfl h]
        exact load_next_internal_page_status env s s2 true hload

theorem iterate_internal_page_status (env : Env) :
    ∀ w s s1 b, intWeight s = w → iterate_internal_page env s = .ok (s1, b) →
      s1.status = s.status := by
  intro w
  induction w using Nat.strong_induction_on with
  | _ w ih =>
    intro s s1 b hw h
    cases hgnd : get_next_downlink env s with
    | error e =>
      rw [iterate_internal_page] at h
      split at h <;> rename_i heq <;> rw [hgnd] at heq <;> cases heq
      · cases h
    | ok pr =>
      obtain ⟨s2, r⟩ := pr
      have hst2 := get_next_downlink_status env s s2 r hgnd
      cases r with
      | none =>
        rw [iterate_gnd_none env s s2 hgnd] at h
        simp only [Except.ok.injEq, Prod.mk.injEq] at h
        rw [← h.1]
        exact hst2
      | some dlo =>
        rw [iterate_gnd_some env s s2 dlo hgnd] at h
        have hwlt := (get_next_downlink_weight env s s2 (some dlo) hgnd).2 (by simp)
        cases hdl : dlo.dlink with
        | onDisk a =>
          simp only [hdl] at h
          have heqw : intWeight {s2 with diskDownlinks := s2.diskDownlinks ++ [a]} =
              intWeight s2 := rfl
          have := ih (intWeight {s2 with diskDownlinks := s2.diskDownlinks ++ [a]})
            (by omega) _ s1 b rfl h
          rw [this]
          exact hst2
        | inMemory bk =>
          simp only [hdl] at h
          split at h
          · obtain ⟨s3, hl, hf⟩ := except_map_ok _ _ _ h
            simp only [Prod.mk.injEq] at hf
            rw [← hf.1, (loadLeafWithHist_fields env _ _ s3 hl).1]
            exact hst2
          · simp only [scan_make_iterator, Except.ok.injEq, Prod.mk.injEq] at h
            rw [← h.1]
            exact hst2
        | pending io2 =>
          simp only [hdl] at h
          simp only [scan_make_iterator, Except.ok.injEq, Prod.mk.injEq] at h
          rw [← h.1]
          exact hst2

theorem load_next_disk_leaf_page_status (env : Env) (s s1 : ScanState)
    (b : Bool) (h : load_next_disk_leaf_page env s = .ok (s1, b)) :
    s1.status = s.status := by
  unfold load_next_disk_leaf_page at h
  split at h
  · simp only [Except.ok.injEq, Prod.mk.injEq] at h
    rw [← h.1]
  · obtain ⟨s2, hl, hf⟩ := except_map_ok _ _ _ h
    simp only [Prod.mk.injEq] at hf
    rw [← hf.1, (loadLeafWithHist_fields env _ _ s2 hl).1]

theorem histPhase_status (env : Env) :
    ∀ q n s s1 t, s.histQueue.length = q → s.histSlots.length = n →
      histPhase env s = .ok (s1, t) → s1.status = s.status := by
  intro q
  induction q using Nat.strong_induction_on with
  | _ q ihq =>
    intro n
    induction n using Nat.strong_induction_on with
    | _ n ihn =>
      intro s s1 t hq hn h
      rw [histPhase] at h
      split at h
      · simp only [Except.ok.injEq, Prod.mk.injEq] at h
        rw [← h.1]
      · split at h
        · rename_i hhs
          split at h
          · simp only [Except.ok.injEq, Prod.mk.injEq] at h
            rw [← h.1]
          · rename_i hh hhk
            split at h
            · rename_i lh hlk
              split at h
              · simp only [Except.ok.injEq, Prod.mk.injEq] at h
                rw [← h.1]
              · split at h
                · simp at h
                · rename_i page rest2 hqq
                  exact ihq rest2.length (by rw [← hq, hqq]; simp)
                    page.slots.length
                    {s with histSlots := page.slots, histHikey := page.hikey,
                            histQueue := rest2} s1 t rfl rfl h
            · split at h
              · simp at h
              · rename_i page rest2 hqq
                exact ihq rest2.length (by rw [← hq, hqq]; simp)
                  page.slots.length
                  {s with histSlots := page.slots, histHikey := page.hikey,
                          histQueue := rest2} s1 t rfl rfl h
        · rename_i ht hrest hhs
          split at h
          · rename_i hls
            split at h
            · rename_i lh hlk
              split at h
              · simp only [Except.ok.injEq, Prod.mk.injEq] at h
                rw [← h.1]
              · split at h
                · simp only [Except.ok.injEq, Prod.mk.injEq] at h
                  rw [← h.1]
                · exact ihn hrest.length (by rw [← hn, hhs]; simp)
                    {s with histSlots := hrest} s1 t hq rfl h
            · split at h
              · simp only [Except.ok.injEq, Prod.mk.injEq] at h
                rw [← h.1]
              · exact ihn hrest.length (by rw [← hn, hhs]; simp)
                  {s with histSlots := hrest} s1 t hq rfl h
          · rename_i lt lrest hls
            split at h
            · simp only [Except.ok.injEq, Prod.mk.injEq] at h
              rw [← h.1]
            · split at h
              · split at h
                · simp only [Except.ok.injEq, Prod.mk.injEq] at h
                  rw [← h.1]
                · split at h
                  · simp only [Except.ok.injEq, Prod.mk.injEq] at h
                    rw [← h.1]
                  · exact ihn hrest.length (by rw [← hn, hhs]; simp)
                      {s with leafSlots := lrest, histSlots := hrest} s1 t hq rfl h
              · split at h
                · simp only [Except.ok.injEq, Prod.mk.injEq] at h
                  rw [← h.1]
                · exact ihn hrest.length (by rw [← hn, hhs]; simp)
                    {s with histSlots := hrest} s1 t hq rfl h

/-- C8: the scan status moves only forward through
InMemory → Disk → Finished.  A raw or ordered get-next iteration never
lowers the status index in any state; the internal steps (the in-memory
pass, the disk-page loader, the historical merge) never change the status
at all; the only transitions are `switch_to_disk_scan`, entered with
status InMemory, and the Disk → Finished assignment on batch exhaustion
— both forward. -/
theorem C8_theorem (env : Env) (s : ScanState) :
    (∀ r, rawStep env s = .ok r →
      statusIdx s.status ≤ statusIdx r.state.status) ∧
    (∀ r, ordStep env s = .ok r →
      statusIdx s.status ≤ statusIdx r.state.status) ∧
    (∀ s1 b, iterate_internal_page env s = .ok (s1, b) →
      s1.status = s.status) ∧
    (∀ s1 b, load_next_disk_leaf_page env s = .ok (s1, b) →
      s1.status = s.status) ∧
    (∀ s1 t, histPhase env s = .ok (s1, t) → s1.status = s.status) ∧
    (s.status = .inMemory →
      statusIdx s.status ≤ statusIdx (switch_to_disk_scan s).status) := by
  refine ⟨?_, ?_, ?_, ?_, ?_, ?_⟩
  · intro r h
    unfold rawStep at h
    split at h
    · split at h <;>
        (simp only [Except.ok.injEq] at h; rw [← h]; exact Nat.le_refl _)
    · split at h
      · simp only [Except.ok.injEq] at h
        rw [← h]
        exact Nat.le_refl _
      · split at h
        · rename_i hst
          split at h
          · cases h
          · rename_i s1 hiter
            simp only [Except.ok.injEq] at h
            rw [← h]
            simp only [StepRes.state]
            rw [iterate_internal_page_status env (intWeight s) s s1 true rfl hiter]
          · rename_i s1 hiter
            simp only [Except.ok.injEq] at h
            rw [← h]
            simp only [StepRes.state, switch_to_disk_scan]
            rw [hst]
            decide
        · rename_i hst
          split at h
          · cases h
          · rename_i s1 hload
            simp only [Except.ok.injEq] at h
            rw [← h]
            simp only [StepRes.state]
            rw [load_next_disk_leaf_page_status env s s1 true hload]
          · rename_i s1 hload
            simp only [Except.ok.injEq] at h
            rw [← h]
            simp only [StepRes.state]
            rw [hst]
            decide
        · rename_i hst
          simp only [Except.ok.injEq] at h
          rw [← h]
          exact Nat.le_refl _
  · intro r h
    unfold ordStep at h
    split at h
    · split at h <;>
        (simp only [Except.ok.injEq] at h; rw [← h]; exact Nat.le_refl _)
    · split at h
      · cases h
      · rename_i s1 t hhp
        simp only [Except.ok.injEq] at h
        rw [← h]
        simp only [StepRes.state]
        rw [histPhase_status env s.histQueue.length s.histSlots.length
          s s1 (some t) rfl rfl hhp]
      · rename_i s1 hhp
        have hs1 := histPhase_status env s.histQueue.length s.histSlots.length
          s s1 none rfl rfl hhp
        split at h
        · split at h
          · rename_i hst
            split at h
            · cases h
            · rename_i s2 hiter
              simp only [Except.ok.injEq] at h
              rw [← h]
              simp only [StepRes.state]
              rw [iterate_internal_page_status env (intWeight s1) s1 s2 true rfl hiter,
                hs1]
            · rename_i s2 hiter
              simp only [Except.ok.injEq] at h
              rw [← h]
              simp only [StepRes.state, switch_to_disk_scan]
              rw [hs1] at hst
              rw [hst]
              decide
          · rename_i hst
            split at h
            · cases h
            · rename_i s2 hload
              simp only [Except.ok.injEq] at h
              rw [← h]
              simp only [StepRes.state]
              rw [load_next_disk_leaf_page_status env s1 s2 true hload, hs1]
            · rename_i s2 hload
              simp only [Except.ok.injEq] at h
              rw [← h]
              simp only [StepRes.state]
              rw [hs1] at hst
              rw [hst]
              decide
          · rename_i hst
            simp only [Except.ok.injEq] at h
            rw [← h]
            simp only [StepRes.state]
            rw [hs1]
        · split at h <;>
            (simp only [Except.ok.injEq] at h; rw [← h];
             simp only [StepRes.state]; rw [hs1])
  · intro s1 b h
    exact iterate_internal_page_status env (intWeight s) s s1 b rfl h
  · intro s1 b h
    exact load_next_disk_leaf_page_status env s s1 b h
  · intro s1 t h
    exact histPhase_status env s.histQueue.length s.histSlots.length
      s s1 t rfl rfl h
  · intro hst
    simp only [switch_to_disk_scan]
    rw [hst]
    decide

/-- A concrete trivial environment for the C8 witness. -/
def c8Env : Env :=
  { intPages := [], leafAt := fun _ => ⟨[], none⟩,
    histAt := fun _ => .ok [], iterOrd := fun _ _ => [],
    iterRaw := fun _ _ => [], visible := fun _ => true }

/-- A concrete in-memory scan state for the C8 witness. -/
def c8State : ScanState :=
  { status := .inMemory, firstPageIsLoaded := true, isSingleLeafPage := true,
    remaining := [], curPage := some ⟨[], none⟩, prevHikey := none,
    leafSlots := [], leafHikey := none, haveHistImg := false,
    histSlots := [], histHikey := none, histQueue := [],
    iter := none, diskDownlinks := [] }

theorem C8_theorem_witness :
    statusIdx c8State.status ≤
        statusIdx (StepRes.cont (switch_to_disk_scan c8State)).state.status ∧
      statusIdx c8State.status ≤
        statusIdx (StepRes.cont (switch_to_disk_scan c8State)).state.status ∧
      c8State.status = c8State.status ∧
      c8State.status = c8State.status ∧
      c8State.status = c8State.status ∧
      statusIdx c8State.status ≤ statusIdx (switch_to_disk_scan c8State).status := by
  have hgo : get_next_downlink_go c8Env c8State = .ok (c8State, none) := by
    rw [get_next_downlink_go]
    rfl
  have hgnd : get_next_downlink c8Env c8State = .ok (c8State, none) := by
    unfold get_next_downlink
    rw [if_pos (show c8State.firstPageIsLoaded = true from rfl)]
    exact hgo
  have hiter : iterate_internal_page c8Env c8State = .ok (c8State, false) :=
    iterate_gnd_none c8Env c8State c8State hgnd
  have hhp : histPhase c8Env c8State = .ok (c8State, none) := by
    rw [histPhase]
    rfl
  have hraw : rawStep c8Env c8State =
      .ok (.cont (switch_to_disk_scan c8State)) := by
    unfold rawStep
    rw [hiter]
    rfl
  have hord : ordStep c8Env c8State =
      .ok (.cont (switch_to_disk_scan c8State)) := by
    unfold ordStep
    simp only [hhp]
    rw [hiter]
    rfl
  obtain ⟨h1, h2, h3, h4, h5, h6⟩ := C8_theorem c8Env c8State
  exact ⟨h1 _ hraw, h2 _ hord, h3 c8State false hiter,
    h4 c8State false rfl, h5 c8State none hhp, h6 rfl⟩

/-- The collision branch of the historical merge (scan.c:1186-1206): with
the merge active, a historical tuple and a current-leaf tuple of equal key
under the cursors, the merge either skips the historical entry (leaf
entry of the scanning transaction) or skips the leaf entry and resolves
the historical one. -/
theorem histPhase_collision (env : Env) (s : ScanState) (ht lt : Slot)
    (hrest lrest : List Slot) (hh : s.haveHistImg = true)
    (hhs : s.histSlots = ht :: hrest) (hls : s.leafSlots = lt :: lrest)
    (hk : ht.key = lt.key) :
    histPhase env s =
      (if lt.curXact then .ok ({s with histSlots := hrest}, none)
       else if env.visible ht then
         .ok ({s with leafSlots := lrest, histSlots := hrest}, some ht)
       else histPhase env {s with leafSlots := lrest, histSlots := hrest}) := by
  rw [histPhase]
  rw [if_neg (by simp [hh])]
  split
  · rename_i heq
    rw [hhs] at heq
    cases heq
  · rename_i ht2 hrest2 heq
    rw [hhs] at heq
    cases heq
    simp only [hls]
    rw [if_neg (by omega)]
    rw [if_pos hk]

/-- A static environment for the C1 merge scenario: every tuple version
is visible under the snapshot. -/
def c1Env : Env :=
  { intPages := [], leafAt := fun _ => ⟨[], none⟩,
    histAt := fun _ => .ok [], iterOrd := fun _ _ => [],
    iterRaw := fun _ _ => [], visible := fun _ => true }

/-- A scan state in the historical merge with a key collision: the
current leaf image holds slot ⟨5, 1⟩ (not the scanning transaction's),
the historical image holds slot ⟨5, 2⟩ at the same key. -/
def c1State : ScanState :=
  { status := .inMemory, firstPageIsLoaded := true, isSingleLeafPage := false,
    remaining := [], curPage := none, prevHikey := none,
    leafSlots := [⟨5, 1, false, false⟩], leafHikey := none,
    haveHistImg := true, histSlots := [⟨5, 2, false, false⟩],
    histHikey := none, histQueue := [],
    iter := none, diskDownlinks := [] }

/-- C1 counterexample: on a key collision where the current image's entry
does NOT belong to the transaction materializing the scan, get-next
returns the HISTORICAL image's entry (slot id 2), not the current image's
entry (slot id 1) as the claim states. -/
theorem C1_counterexample :
    (⟨5, 1, false, false⟩ : Slot).curXact = false ∧
    c1State.leafSlots = [⟨5, 1, false, false⟩] ∧
    c1State.histSlots = [⟨5, 2, false, false⟩] ∧
    ordStep c1Env c1State =
      .ok (.yield {c1State with leafSlots := [], histSlots := []}
        (some ⟨5, 2, false, false⟩) (some ⟨5, 2, false, false⟩)) ∧
    (⟨5, 2, false, false⟩ : Slot) ≠ ⟨5, 1, false, false⟩ := by
  refine ⟨rfl, rfl, rfl, ?_, by decide⟩
  have hhp : histPhase c1Env c1State =
      .ok ({c1State with leafSlots := [], histSlots := []},
        some ⟨5, 2, false, false⟩) := by
    rw [histPhase]
    rfl
  unfold ordStep
  simp only [hhp]
  rfl

/-- C1 (amended): when the current leaf image and the historical image
are merged during get-next-tuple and an entry with the same key exists in
both images (both visible), the merged output takes the HISTORICAL
image's entry, unless the current image's entry belongs to the
transaction materializing the scan itself, in which case the CURRENT
image's entry is taken (scan.c:1195-1206: on `cmp == 0`, a current-xact
leaf entry skips the historical entry and breaks to the leaf path,
otherwise the leaf entry is skipped and the historical tuple is
resolved). -/
theorem C1_theorem (env : Env) (s : ScanState) (ht lt : Slot)
    (hrest lrest : List Slot) (hiter : s.iter = none)
    (hh : s.haveHistImg = true) (hhs : s.histSlots = ht :: hrest)
    (hls : s.leafSlots = lt :: lrest) (hk : ht.key = lt.key)
    (hvh : env.visible ht = true) (hvl : env.visible lt = true) :
    (lt.curXact = false →
      ordStep env s =
        .ok (.yield {s with leafSlots := lrest, histSlots := hrest}
          (some ht) (some ht))) ∧
    (lt.curXact = true →
      ordStep env s =
        .ok (.yield {s with leafSlots := lrest, histSlots := hrest}
          (some lt) (some lt))) := by
  have hcol := histPhase_collision env s ht lt hrest lrest hh hhs hls hk
  constructor
  · intro hcx
    have hcol2 : histPhase env s =
        .ok ({s with leafSlots := lrest, histSlots := hrest}, some ht) := by
      rw [hcol]
      simp [hcx, hvh]
    unfold ordStep
    simp only [hiter, hcol2]
  · intro hcx
    have hcol2 : histPhase env s =
        .ok ({s with histSlots := hrest}, none) := by
      rw [hcol]
      simp [hcx]
    unfold ordStep
    simp only [hiter, hcol2, hls, hvl]
    rfl

theorem C1_theorem_witness :
    ordStep c1Env c1State =
      .ok (.yield {c1State with leafSlots := [], histSlots := []}
        (some ⟨5, 2, false, false⟩) (some ⟨5, 2, false, false⟩)) :=
  (C1_theorem c1Env c1State ⟨5, 2, false, false⟩ ⟨5, 1, false, false⟩ [] []
    rfl rfl rfl rfl rfl rfl rfl).1 rfl

/-- A static environment for the C4 replay witness. -/
def c4Env : Env :=
  { intPages := [], leafAt := fun _ => ⟨[], none⟩,
    histAt := fun _ => .ok [], iterOrd := fun _ _ => [],
    iterRaw := fun _ _ => [], visible := fun _ => true }

/-- A disk-phase scan state with the sorted batch [2, 5] pending. -/
def c4State : ScanState :=
  { status := .disk, firstPageIsLoaded := true, isSingleLeafPage := false,
    remaining := [], curPage := none, prevHikey := none,
    leafSlots := [], leafHikey := none, haveHistImg := false,
    histSlots := [], histHikey := none, histQueue := [],
    iter := none, diskDownlinks := [2, 5] }

/-- C4: on the transition to the disk phase the batched downlink array is
sorted ascending by raw downlink value (`sort_downlinks` permutes its
input into pairwise non-decreasing `downlink` order, and
`switch_to_disk_scan` applies the same comparator-driven sort to the
scan's batch), and the replay loop consumes entries in exactly that
order (`load_next_disk_leaf_page` takes the head of the sorted remainder
and leaves the tail), so disk-phase downlinks are visited in
non-decreasing physical address order; on the addresses [9, 2, 7, 2] the
comparator sort yields [2, 2, 7, 9]. -/
theorem C4_theorem :
    (∀ l : List BTreeSeqScanDiskDownlink,
      (sort_downlinks l).Perm l ∧
      (sort_downlinks l).Pairwise (fun a b => a.downlink ≤ b.downlink)) ∧
    (∀ s : ScanState,
      (switch_to_disk_scan s).diskDownlinks.Perm s.diskDownlinks ∧
      (switch_to_disk_scan s).diskDownlinks.Pairwise (fun a b => a ≤ b)) ∧
    (∀ (env : Env) (s : ScanState) (a : Nat) (rest : List Nat)
        (s1 : ScanState) (b : Bool),
      s.diskDownlinks = a :: rest →
      load_next_disk_leaf_page env s = .ok (s1, b) →
      b = true ∧ s1.diskDownlinks = rest) ∧
    (sort_downlinks [⟨9, 0⟩, ⟨2, 1⟩, ⟨7, 2⟩, ⟨2, 3⟩]).map
      BTreeSeqScanDiskDownlink.downlink = [2, 2, 7, 9] := by
  refine ⟨?_, ?_, ?_, by decide⟩
  · intro l
    refine ⟨sortLe_perm _ l, ?_⟩
    have htot : ∀ a b : BTreeSeqScanDiskDownlink,
        decide (cmp_downlinks a b ≤ 0) = false →
        decide (cmp_downlinks b a ≤ 0) = true := by
      intro a b h
      simp only [decide_eq_false_iff_not, cmp_downlinks_le_iff] at h
      simp only [decide_eq_true_eq, cmp_downlinks_le_iff]
      omega
    have htrans : ∀ a b c : BTreeSeqScanDiskDownlink,
        decide (cmp_downlinks a b ≤ 0) = true →
        decide (cmp_downlinks b c ≤ 0) = true →
        decide (cmp_downlinks a c ≤ 0) = true := by
      intro a b c h1 h2
      simp only [decide_eq_true_eq, cmp_downlinks_le_iff] at h1 h2 ⊢
      omega
    exact (sortLe_pairwise _ htot htrans l).imp
      (fun h => (cmp_downlinks_le_iff _ _).mp (of_decide_eq_true h))
  · intro s
    refine ⟨sortLe_perm natLeB s.diskDownlinks, ?_⟩
    have htot : ∀ a b : Nat, natLeB a b = false → natLeB b a = true := by
      intro a b h
      simp only [natLeB, decide_eq_false_iff_not] at h
      simp only [natLeB, decide_eq_true_eq]
      omega
    have htrans : ∀ a b c : Nat, natLeB a b = true → natLeB b c = true →
        natLeB a c = true := by
      intro a b c h1 h2
      simp only [natLeB, decide_eq_true_eq] at h1 h2 ⊢
      omega
    exact (sortLe_pairwise natLeB htot htrans s.diskDownlinks).imp
      (fun h => of_decide_eq_true h)
  · intro env s a rest s1 b h1 h2
    unfold load_next_disk_leaf_page at h2
    simp only [h1] at h2
    obtain ⟨s2, hl, hf⟩ := except_map_ok _ _ _ h2
    simp only [Prod.mk.injEq] at hf
    refine ⟨hf.2.symm, ?_⟩
    rw [← hf.1]
    exact (loadLeafWithHist_fields env _ _ s2 hl).2.2.2.2.2.2.1

theorem C4_theorem_witness :
    (true : Bool) = true ∧
    ({ c4State with diskDownlinks := [5], leafSlots := [],
                    leafHikey := none, haveHistImg := false,
                    histSlots := [], histHikey := none,
                    histQueue := [] } : ScanState).diskDownlinks
      = [5] :=
  C4_theorem.2.2.1 c4Env c4State 2 [5] _ true rfl rfl

/-- The scan state produced by creation over a single-leaf tree: the leaf
is loaded directly, `isSingleLeafPage` is set, the batch is empty. -/
def c7Made (env : Env) : ScanState :=
  { status := .inMemory, firstPageIsLoaded := true, isSingleLeafPage := true,
    remaining := [], curPage := some ⟨[], none⟩, prevHikey := none,
    leafSlots := (env.leafAt .root).slots,
    leafHikey := (env.leafAt .root).hikey,
    haveHistImg := false, histSlots := [], histHikey := none,
    histQueue := [], iter := none, diskDownlinks := [] }

/-- A single-leaf-page environment: no internal level, the root leaf
holds one slot. -/
def c7Env : Env :=
  { intPages := [], leafAt := fun _ => ⟨[⟨1, 0, false, false⟩], none⟩,
    histAt := fun _ => .ok [], iterOrd := fun _ _ => [],
    iterRaw := fun _ _ => [], visible := fun _ => true }

def c7S1 : ScanState :=
  { status := .inMemory, firstPageIsLoaded := true, isSingleLeafPage := true,
    remaining := [], curPage := some ⟨[], none⟩, prevHikey := none,
    leafSlots := [⟨1, 0, false, false⟩], leafHikey := none,
    haveHistImg := false, histSlots := [], histHikey := none,
    histQueue := [], iter := none, diskDownlinks := [] }

def c7S2 : ScanState := {c7S1 with leafSlots := []}

def c7S3 : ScanState := switch_to_disk_scan c7S2

/-- C7 counterexample: over a single-leaf tree, creation detects the
condition and scans the leaf directly, but after the leaf is exhausted a
raw get-next iteration calls `switch_to_disk_scan` (scan.c:1248,
unguarded by `isSingleLeafPage`), so the scan status DOES become Disk,
contradicting the claim's "the status never becomes Disk". -/
theorem C7_counterexample :
    make_btree_seq_scan c7Env = .ok c7S1 ∧
    c7S1.isSingleLeafPage = true ∧
    c7S1.status = .inMemory ∧
    rawStep c7Env c7S1 =
      .ok (.yield c7S2 (some ⟨1, 0, false, false⟩)
        (some ⟨1, 0, false, false⟩)) ∧
    rawStep c7Env c7S2 = .ok (.cont c7S3) ∧
    c7S3.status = .disk := by
  have hgnd : get_next_downlink c7Env (makeInitState c7Env) =
      .ok (c7S1, none) := rfl
  have hiter : iterate_internal_page c7Env (makeInitState c7Env) =
      .ok (c7S1, false) := iterate_gnd_none c7Env _ c7S1 hgnd
  have hmake : make_btree_seq_scan c7Env = .ok c7S1 := by
    unfold make_btree_seq_scan
    simp only [hiter]
    rfl
  have hgo : get_next_downlink_go c7Env c7S2 = .ok (c7S2, none) := by
    rw [get_next_downlink_go]
    rfl
  have hgnd2 : get_next_downlink c7Env c7S2 = .ok (c7S2, none) := by
    unfold get_next_downlink
    rw [if_pos (show c7S2.firstPageIsLoaded = true from rfl)]
    exact hgo
  have hiter2 : iterate_internal_page c7Env c7S2 = .ok (c7S2, false) :=
    iterate_gnd_none c7Env c7S2 c7S2 hgnd2
  have hstep2 : rawStep c7Env c7S2 = .ok (.cont c7S3) := by
    unfold rawStep
    rw [hiter2]
    rfl
  exact ⟨hmake, rfl, rfl, rfl, hstep2, rfl⟩

/-- A level-1 page whose left bound (3) does not match the previous
high-key (5). -/
def c6P : IntPageM :=
  { lokey := some 3, firstDl := .inMemory 0,
    rest := [(7, .inMemory 1)], hikey := some 9 }

/-- A trivial environment for the C6 witness. -/
def c6Env : Env :=
  { intPages := [c6P], leafAt := fun _ => ⟨[], none⟩,
    histAt := fun _ => .ok [], iterOrd := fun _ _ => [],
    iterRaw := fun _ _ => [], visible := fun _ => true }

/-- A scan state about to locate the next internal page: the previous
page's high-key is 5. -/
def c6State : ScanState :=
  { status := .inMemory, firstPageIsLoaded := true, isSingleLeafPage := false,
    remaining := [c6P], curPage := some ⟨[], some 5⟩, prevHikey := none,
    leafSlots := [], leafHikey := none, haveHistImg := false,
    histSlots := [], histHikey := none, histQueue := [],
    iter := none, diskDownlinks := [] }

/-- C6: when the left bound of a freshly located level-1 internal page
does not equal the tracked previous high-key `pk` (scan.c:304-321), the
load advances the internal cursor past the first item and opens the
ordered fallback iterator bounded by [pk, corrected next key) — the next
key being the following item's key, or the page high-key when no item
follows (`get_next_key`); the iterator's output preempts direct
traversal in get-next until it is exhausted (scan.c:1115-1120), after
which the cursor emits the remaining items; the affected range is
neither dropped (the iterator covers [pk, next key)) nor duplicated
(direct traversal resumes exactly at the iterator's upper bound: the
next emitted downlink's key-range low equals it). -/
theorem C6_theorem (env : Env) (s : ScanState) (P : IntPageM)
    (rest : List IntPageM) (cp : CurIntPage) (pk : Nat)
    (hfp : s.firstPageIsLoaded = true) (hrem : s.remaining = P :: rest)
    (hcp : s.curPage = some cp) (hpk : cp.hikey = some pk)
    (hmis : ¬ (P.lokey = some pk)) :
    (load_next_internal_page env s =
      .ok (scan_make_iterator env (some pk)
            (nextKeyOf (intPageItems (some pk) P).tail P.hikey)
            {s with firstPageIsLoaded := true, prevHikey := some pk,
                    remaining := rest,
                    curPage := some ⟨(intPageItems (some pk) P).tail,
                      P.hikey⟩},
           true)) ∧
    (∀ (lo hi : Option Nat) (t : ScanState),
      (scan_make_iterator env lo hi t).iter =
        some ⟨lo, hi, env.iterOrd lo hi, env.iterRaw lo hi⟩ ∧
      (scan_make_iterator env lo hi t).leafSlots = [] ∧
      (scan_make_iterator env lo hi t).haveHistImg = false) ∧
    (∀ (t : ScanState) (it : IterState) (x : Slot) (xs : List Slot),
      t.iter = some it → it.ordOut = x :: xs →
      ordStep env t =
        .ok (.yield {t with iter := some {it with ordOut := xs}}
          (some x) (some x))) ∧
    (∀ (t : ScanState) (it : IterState), t.iter = some it →
      it.ordOut = [] → ordStep env t = .ok (.cont {t with iter := none})) ∧
    (∀ (t : ScanState) (k : Nat) (d : Downlink)
        (rs : List (Option Nat × Downlink)) (hk2 : Option Nat),
      t.curPage = some ⟨(some k, d) :: rs, hk2⟩ →
      get_next_downlink_go env t =
        .ok ({t with curPage := some ⟨rs, hk2⟩},
             some ⟨some k, nextKeyOf rs hk2, d⟩)) ∧
    (∀ (k : Nat) (d : Downlink) (rs : List (Option Nat × Downlink)),
      (intPageItems (some pk) P).tail = (some k, d) :: rs →
      nextKeyOf (intPageItems (some pk) P).tail P.hikey = some k) := by
  refine ⟨?_, ?_, ?_, ?_, ?_, ?_⟩
  · unfold load_next_internal_page
    dsimp only
    simp only [hrem, hfp, hcp, hpk, if_true]
    rw [if_neg hmis]
  · intro lo hi t
    exact ⟨rfl, rfl, rfl⟩
  · intro t it x xs hti hord
    unfold ordStep
    simp only [hti, hord]
  · intro t it hti hord
    unfold ordStep
    simp only [hti, hord]
  · intro t k d rs hk2 hcp2
    rw [get_next_downlink_go]
    simp only [hcp2]
  · intro k d rs he
    rw [he]
    rfl

theorem C6_theorem_witness :
    load_next_internal_page c6Env c6State =
      .ok (scan_make_iterator c6Env (some 5)
            (nextKeyOf (intPageItems (some 5) c6P).tail c6P.hikey)
            {c6State with firstPageIsLoaded := true, prevHikey := some 5,
                          remaining := [],
                          curPage := some ⟨(intPageItems (some 5) c6P).tail,
                            c6P.hikey⟩},
           true) :=
  (C6_theorem c6Env c6State c6P [] ⟨[], some 5⟩ 5 rfl rfl rfl rfl
    (by decide)).1

/-! ## Raw-scan completeness (claim C5)

The raw get-next path (scan.c:1327-1414) is proved complete over static
well-formed trees: every physical slot of every leaf reachable from the
level-1 pages (or of the single root leaf) is consumed exactly once, a
deleted slot being returned as a null tuple, and the run ends in the
Finished state after the explicit end yield. -/

/-- The undo-image resolver succeeds on a page reference
(`load_first_historical_page` raises nothing for it). -/
def histOk (env : Env) (r : LeafRef) : Bool :=
  match env.histAt r with
  | .ok _ => true
  | .error _ => false

/-- A downlink consistent with its key-range high `hi`: an in-memory
downlink's leaf hikey must match (`check_in_memory_leaf_page`,
scan.c:651-682) and its undo resolve; an on-disk downlink's eventual
read must resolve; no downlink has IO in progress. -/
def dlOk (env : Env) : Downlink → Option Nat → Bool
  | .inMemory b, hi =>
    histOk env (.mem b) && decide ((env.leafAt (.mem b)).hikey = hi)
  | .onDisk a, _ => histOk env (.dsk a)
  | .pending _, _ => false

/-- Every item of a loaded internal page is consistent, each against the
key-range high `get_next_key` will produce for it. -/
def itemsOk (env : Env) : List (Option Nat × Downlink) → Option Nat → Bool
  | [], _ => true
  | it :: rest, hk => dlOk env it.2 (nextKeyOf rest hk) && itemsOk env rest hk

/-- The not-yet-visited level-1 pages chain correctly: each left bound
equals the previous page's high-key (so no fallback iterator opens), a
non-rightmost position always has a successor page, and every page's
items are consistent. -/
def pagesOk (env : Env) : List IntPageM → Option Nat → Bool
  | [], _ => true
  | P :: ps, ph =>
    match ph with
    | none => false
    | some pk =>
      decide (P.lokey = some pk) &&
        itemsOk env (intPageItems (some pk) P) P.hikey &&
        pagesOk env ps P.hikey

/-- The in-memory leaf slots under a downlink sequence, in order. -/
def memSlots (env : Env) : List Downlink → List Slot
  | [] => []
  | .inMemory b :: ds => (env.leafAt (.mem b)).slots ++ memSlots env ds
  | .onDisk _ :: ds => memSlots env ds
  | .pending _ :: ds => memSlots env ds

/-- The on-disk downlink addresses of a downlink sequence, in batch
(collection) order. -/
def diskAddrs : List Downlink → List Nat
  | [] => []
  | .onDisk a :: ds => a :: diskAddrs ds
  | .inMemory _ :: ds => diskAddrs ds
  | .pending _ :: ds => diskAddrs ds

/-- The physical slots of the leaf a downlink points to. -/
def dlAllSlots (env : Env) : Downlink → List Slot
  | .inMemory b => (env.leafAt (.mem b)).slots
  | .onDisk a => (env.leafAt (.dsk a)).slots
  | .pending _ => []

/-- The downlinks of one level-1 page, in page order. -/
def pageDls (P : IntPageM) : List Downlink :=
  P.firstDl :: P.rest.map Prod.snd

/-- The downlinks of a page sequence, in traversal order. -/
def pagesDls (ps : List IntPageM) : List Downlink :=
  ps.flatMap pageDls

/-- All physical tuple slots of the tree, in tree order. -/
def treeSlotsRaw (env : Env) : List Slot :=
  match env.intPages with
  | [] => (env.leafAt .root).slots
  | _ :: _ => (pagesDls env.intPages).flatMap (dlAllSlots env)

/-- Static well-formedness of the tree for the raw-completeness claim:
the single root leaf resolves, or the first page's items are consistent
and the following pages chain. -/
def WFRawEnv (env : Env) : Bool :=
  match env.intPages with
  | [] => histOk env .root
  | P :: ps =>
    itemsOk env (intPageItems none P) P.hikey && pagesOk env ps P.hikey

/-- The (returned tuple, consumed slot) pair of one raw leaf yield
(scan.c:1375-1389): a deleted slot is returned as a null tuple. -/
def tagPair (x : Slot) : Option Slot × Option Slot :=
  (if x.deleted then none else some x, some x)

/-- The end flag of `btree_seq_scan_getnext_raw` (scan.c:1398-1413): true
exactly when the scan status (after the internal call) is Finished. -/
def getnext_raw_end (s : ScanState) : Bool :=
  decide (s.status = .finished)

theorem memSlots_append (env : Env) (l1 l2 : List Downlink) :
    memSlots env (l1 ++ l2) = memSlots env l1 ++ memSlots env l2 := by
  induction l1 with
  | nil => simp [memSlots]
  | cons d ds ih =>
    cases d <;> simp [memSlots, ih]

theorem diskAddrs_append (l1 l2 : List Downlink) :
    diskAddrs (l1 ++ l2) = diskAddrs l1 ++ diskAddrs l2 := by
  induction l1 with
  | nil => simp [diskAddrs]
  | cons d ds ih =>
    cases d <;> simp [diskAddrs, ih]

theorem intPageItems_map_snd (pv : Option Nat) (P : IntPageM) :
    (intPageItems pv P).map Prod.snd = pageDls P := by
  simp [intPageItems, pageDls, List.map_map, Function.comp]

theorem pagesDls_cons (P : IntPageM) (ps : List IntPageM) :
    pagesDls (P :: ps) = pageDls P ++ pagesDls ps := by
  simp [pagesDls]

theorem pagesDls_nil : pagesDls [] = [] := rfl

theorem rawRun_append (env : Env) (m n : Nat) :
    ∀ s o1 s1, rawRun env m s = .ok (o1, s1) →
      rawRun env (m + n) s =
        (rawRun env n s1).map (fun pr => (o1 ++ pr.1, pr.2)) := by
  induction m with
  | zero =>
    intro s o1 s1 h
    simp only [rawRun, Except.ok.injEq, Prod.mk.injEq] at h
    obtain ⟨h1, h2⟩ := h
    subst h2
    rw [Nat.zero_add]
    cases hr : rawRun env n s with
    | error e => simp [Except.map]
    | ok pr => simp [Except.map, ← h1]
  | succ m ih =>
    intro s o1 s1 h
    rw [show m + 1 + n = (m + n) + 1 from by omega]
    rw [rawRun] at h
    rw [rawRun]
    cases hstep : rawStep env s with
    | error e =>
      rw [hstep] at h
      cases h
    | ok r =>
      cases r with
      | cont s2 =>
        simp only [hstep] at h ⊢
        exact ih s2 o1 s1 h
      | yield s2 ret cons =>
        simp only [hstep] at h ⊢
        obtain ⟨pr, hpr, hval⟩ := except_map_ok _ _ _ h
        simp only [Prod.mk.injEq] at hval
        obtain ⟨h1, h2⟩ := hval
        subst h2
        rw [ih s2 pr.1 pr.2 (by rw [hpr])]
        cases rawRun env n pr.2 with
        | error e => simp [Except.map]
        | ok q => simp [Except.map, ← h1]

theorem ScanState_leafSlots_self (s : ScanState) (h : s.leafSlots = []) :
    {s with leafSlots := []} = s := by
  cases s
  simp_all

theorem rawRun_leaf (env : Env) :
    ∀ (xs : List Slot) (s : ScanState), s.iter = none → s.leafSlots = xs →
      rawRun env xs.length s =
        .ok (xs.map tagPair, {s with leafSlots := []}) := by
  intro xs
  induction xs with
  | nil =>
    intro s hi hl
    rw [show ([] : List Slot).length = 0 from rfl, rawRun,
      ScanState_leafSlots_self s hl]
    rfl
  | cons x rest ih =>
    intro s hi hl
    rw [show (x :: rest).length = rest.length + 1 from rfl, rawRun]
    have hstep : rawStep env s =
        .ok (.yield {s with leafSlots := rest}
          (if x.deleted then none else some x) (some x)) := by
      unfold rawStep
      simp only [hi, hl]
    simp only [hstep]
    rw [ih {s with leafSlots := rest} hi rfl]
    rfl

theorem iterate_gnd_error (env : Env) (s : ScanState) (e : ScanError)
    (h : get_next_downlink env s = .error e) :
    iterate_internal_page env s = .error e := by
  rw [iterate_internal_page]
  split
  · rename_i e2 heq
    rw [h] at heq
  · rename_i s2 heq
    rw [h] at heq
    cases heq
  · rename_i s2 dlo heq
    rw [h] at heq
    cases heq

theorem iterate_congr (env : Env) (a b : ScanState)
    (h : get_next_downlink env a = get_next_downlink env b) :
    iterate_internal_page env a = iterate_internal_page env b := by
  cases hg : get_next_downlink env b with
  | error e =>
    rw [iterate_gnd_error env a e (by rw [h, hg]),
      iterate_gnd_error env b e hg]
  | ok r =>
    obtain ⟨s1, ro⟩ := r
    cases ro with
    | none =>
      rw [iterate_gnd_none env a s1 (by rw [h, hg]),
        iterate_gnd_none env b s1 hg]
    | some dlo =>
      rw [iterate_gnd_some env a s1 dlo (by rw [h, hg]),
        iterate_gnd_some env b s1 dlo hg]

theorem gnd_loaded (env : Env) (t : ScanState)
    (hfp : t.firstPageIsLoaded = true) :
    get_next_downlink env t = get_next_downlink_go env t := by
  unfold get_next_downlink
  rw [if_pos hfp]

theorem go_emit (env : Env) (t : ScanState) (it : Option Nat × Downlink)
    (rest : List (Option Nat × Downlink)) (hk : Option Nat)
    (hcp : t.curPage = some ⟨it :: rest, hk⟩) :
    get_next_downlink_go env t =
      .ok ({t with curPage := some ⟨rest, hk⟩},
           some ⟨it.1, nextKeyOf rest hk, it.2⟩) := by
  rw [get_next_downlink_go]
  simp only [hcp]

theorem go_exhaust_none (env : Env) (t : ScanState)
    (hcp : t.curPage = some ⟨[], none⟩) :
    get_next_downlink_go env t = .ok (t, none) := by
  rw [get_next_downlink_go]
  simp only [hcp]
  rfl

theorem go_exhaust_last (env : Env) (t : ScanState) (pk : Nat)
    (hcp : t.curPage = some ⟨[], some pk⟩) (hrem : t.remaining = []) :
    get_next_downlink_go env t = .ok (t, none) := by
  rw [get_next_downlink_go]
  simp only [hcp]
  rw [if_neg (by simp)]
  split
  · rfl
  · rename_i P rest heq
    rw [hrem] at heq
    cases heq

theorem go_page_load (env : Env) (t : ScanState) (pk : Nat) (P : IntPageM)
    (ps : List IntPageM) (hcp : t.curPage = some ⟨[], some pk⟩)
    (hrem : t.remaining = P :: ps) (hfp : t.firstPageIsLoaded = true)
    (hlok : P.lokey = some pk) (hit : t.iter = none) :
    get_next_downlink_go env t =
      get_next_downlink_go env
        {t with firstPageIsLoaded := true, prevHikey := some pk,
                remaining := ps,
                curPage := some ⟨intPageItems (some pk) P, P.hikey⟩} := by
  have hload : load_next_internal_page env t =
      .ok ({t with firstPageIsLoaded := true, prevHikey := some pk,
                   remaining := ps,
                   curPage := some ⟨intPageItems (some pk) P, P.hikey⟩},
           true) := by
    unfold load_next_internal_page
    dsimp only
    simp only [hrem, hfp, hcp, if_true]
    rw [if_pos hlok]
  rw [get_next_downlink_go]
  simp only [hcp]
  rw [if_neg (by simp)]
  split
  · rename_i heq
    rw [hrem] at heq
    cases heq
  · rename_i P2 ps2 heq
    rw [hrem] at heq
    cases heq
    split
    · rename_i e heq2
      rw [hload] at heq2
      cases heq2
    · rename_i s1 heq2
      rw [hload] at heq2
      cases heq2
    · rename_i s1 heq2
      rw [hload] at heq2
      cases heq2
      rw [if_neg (by show ¬ (t.iter.isSome = true); rw [hit]; simp)]

theorem rawStep_inMemory (env : Env) (t : ScanState) (hit : t.iter = none)
    (hls : t.leafSlots = []) (hst : t.status = .inMemory) :
    rawStep env t =
      (match iterate_internal_page env t with
       | .error e => .error e
       | .ok (s1, true) => .ok (.cont s1)
       | .ok (s1, false) => .ok (.cont (switch_to_disk_scan s1))) := by
  unfold rawStep
  simp only [hit, hls, hst]

theorem loadLeafWithHist_ok (env : Env) (r : LeafRef) (s : ScanState)
    (h : histOk env r = true) :
    ∃ s1, loadLeafWithHist env r s = .ok s1 := by
  unfold loadLeafWithHist
  cases hh : env.histAt r with
  | error e =>
    unfold histOk at h
    simp only [hh] at h
    cases h
  | ok l =>
    cases l with
    | nil =>
      refine ⟨{s with leafSlots := (env.leafAt r).slots,
                      leafHikey := (env.leafAt r).hikey,
                      haveHistImg := false, histSlots := [],
                      histHikey := none, histQueue := []}, ?_⟩
      simp only [hh]
    | cons a as =>
      refine ⟨{s with leafSlots := (env.leafAt r).slots,
                      leafHikey := (env.leafAt r).hikey,
                      haveHistImg := true, histSlots := a.slots,
                      histHikey := a.hikey, histQueue := as}, ?_⟩
      simp only [hh]

theorem itemsOk_diskAddrs (env : Env) :
    ∀ (items : List (Option Nat × Downlink)) (hk : Option Nat),
      itemsOk env items hk = true →
      ∀ a ∈ diskAddrs (items.map Prod.snd), histOk env (.dsk a) = true := by
  intro items
  induction items with
  | nil => intro hk h a ha; simp [diskAddrs] at ha
  | cons it rest ih =>
    intro hk h a ha
    simp only [itemsOk, Bool.and_eq_true] at h
    obtain ⟨hdl, hrest⟩ := h
    simp only [List.map_cons] at ha
    cases hd : it.2 with
    | inMemory b =>
      rw [hd] at ha
      simp only [diskAddrs] at ha
      exact ih hk hrest a ha
    | onDisk a2 =>
      rw [hd] at ha hdl
      simp only [diskAddrs, List.mem_cons] at ha
      rcases ha with ha | ha
      · subst ha
        simpa [dlOk] using hdl
      · exact ih hk hrest a ha
    | pending i =>
      rw [hd] at hdl
      simp [dlOk] at hdl

theorem pagesOk_diskAddrs (env : Env) :
    ∀ (ps : List IntPageM) (ph : Option Nat),
      pagesOk env ps ph = true →
      ∀ a ∈ diskAddrs (pagesDls ps), histOk env (.dsk a) = true := by
  intro ps
  induction ps with
  | nil => intro ph h a ha; simp [pagesDls, diskAddrs] at ha
  | cons P rest ih =>
    intro ph h a ha
    cases ph with
    | none => simp [pagesOk] at h
    | some pk =>
      simp only [pagesOk, Bool.and_eq_true] at h
      obtain ⟨⟨hlok, hio⟩, hpo⟩ := h
      rw [pagesDls_cons, diskAddrs_append] at ha
      rcases List.mem_append.mp ha with ha | ha
      · rw [← intPageItems_map_snd (some pk) P] at ha
        exact itemsOk_diskAddrs env _ _ hio a ha
      · exact ih P.hikey hpo a ha

theorem sortLe_mem {α : Type} (le : α → α → Bool) (l : List α) (a : α) :
    a ∈ sortLe le l ↔ a ∈ l :=
  (sortLe_perm le l).mem_iff

theorem rawStep_inMemory_congr (env : Env) (a b : ScanState)
    (hi : iterate_internal_page env a = iterate_internal_page env b)
    (ha1 : a.iter = none) (ha2 : a.leafSlots = [])
    (ha3 : a.status = .inMemory)
    (hb1 : b.iter = none) (hb2 : b.leafSlots = [])
    (hb3 : b.status = .inMemory) :
    rawStep env a = rawStep env b := by
  rw [rawStep_inMemory env a ha1 ha2 ha3,
    rawStep_inMemory env b hb1 hb2 hb3, hi]

/-- The raw in-memory pass over a well-formed static tree: starting from
a loaded position with the leaf cursor exhausted, the run consumes
exactly the in-memory leaf slots under the not-yet-visited downlinks (in
order), batches exactly their on-disk addresses, and ends at the
switch to the disk phase. -/
theorem rawRun_inMemory (env : Env) :
    ∀ w t cp, intWeight t = w →
      t.status = .inMemory → t.iter = none → t.firstPageIsLoaded = true →
      t.leafSlots = [] → t.curPage = some cp →
      itemsOk env cp.items cp.hikey = true →
      pagesOk env t.remaining cp.hikey = true →
      ∃ n s',
        rawRun env n t =
          .ok ((memSlots env
            (cp.items.map Prod.snd ++ pagesDls t.remaining)).map tagPair,
            s') ∧
        s'.status = .disk ∧ s'.iter = none ∧ s'.leafSlots = [] ∧
        s'.diskDownlinks =
          sortLe natLeB (t.diskDownlinks ++
            diskAddrs (cp.items.map Prod.snd ++ pagesDls t.remaining)) := by
  intro w
  induction w using Nat.strong_induction_on with
  | _ w ih =>
    intro t cp hw hst hit hfp hls hcp hio hpo
    cases hitems : cp.items with
    | nil =>
      cases hremv : t.remaining with
      | nil =>
        have hgo : get_next_downlink_go env t = .ok (t, none) := by
          cases hhk : cp.hikey with
          | none =>
            exact go_exhaust_none env t
              (by rw [hcp]; cases cp; simp_all)
          | some pk =>
            exact go_exhaust_last env t pk
              (by rw [hcp]; cases cp; simp_all) hremv
        have hgnd : get_next_downlink env t = .ok (t, none) := by
          rw [gnd_loaded env t hfp]
          exact hgo
        have hiter : iterate_internal_page env t = .ok (t, false) := by
          have h2 := iterate_gnd_none env t t hgnd
          rwa [show t.iter.isSome = false from by rw [hit]; rfl] at h2
        have hstep : rawStep env t = .ok (.cont (switch_to_disk_scan t)) := by
          rw [rawStep_inMemory env t hit hls hst]
          simp only [hiter]
        refine ⟨1, switch_to_disk_scan t, ?_, rfl, hit, rfl, ?_⟩
        · rw [rawRun]
          simp only [hstep]
          rw [rawRun]
          rfl
        · show sortLe natLeB t.diskDownlinks = _
          simp [pagesDls, diskAddrs]
      | cons P ps =>
        have hpo2 := hpo
        rw [hremv] at hpo2
        cases hhk : cp.hikey with
        | none =>
          rw [hhk] at hpo2
          simp [pagesOk] at hpo2
        | some pk =>
          rw [hhk] at hpo2
          simp only [pagesOk, Bool.and_eq_true, decide_eq_true_eq] at hpo2
          obtain ⟨⟨hlok, hpio⟩, hppo⟩ := hpo2
          have hcp2 : t.curPage = some ⟨[], some pk⟩ := by
            rw [hcp]; cases cp; simp_all
          have hgo := go_page_load env t pk P ps hcp2 hremv hfp hlok hit
          have hgnd : get_next_downlink env t =
              get_next_downlink env
                {t with firstPageIsLoaded := true, prevHikey := some pk,
                        remaining := ps,
                        curPage := some ⟨intPageItems (some pk) P,
                          P.hikey⟩} := by
            rw [gnd_loaded env t hfp, gnd_loaded env _ rfl]
            exact hgo
          have hiterc := iterate_congr env t _ hgnd
          have hstepEq : rawStep env t =
              rawStep env
                {t with firstPageIsLoaded := true, prevHikey := some pk,
                        remaining := ps,
                        curPage := some ⟨intPageItems (some pk) P,
                          P.hikey⟩} :=
            rawStep_inMemory_congr env t _ hiterc hit hls hst hit hls hst
          have hwS : intWeight
              {t with firstPageIsLoaded := true, prevHikey := some pk,
                      remaining := ps,
                      curPage := some ⟨intPageItems (some pk) P,
                        P.hikey⟩} < w := by
            rw [← hw]
            simp only [intWeight, hcp, hitems, hremv, intPageItems]
            simp
          obtain ⟨n, s', hrun, hsd, hsi, hsl, hdd⟩ :=
            ih _ hwS _ ⟨intPageItems (some pk) P, P.hikey⟩ rfl hst hit rfl
              hls rfl hpio hppo
          have hdls : List.map (Prod.snd (α := Option Nat))
                ([] : List (Option Nat × Downlink)) ++ pagesDls (P :: ps) =
              (intPageItems (some pk) P).map Prod.snd ++ pagesDls ps := by
            rw [pagesDls_cons, intPageItems_map_snd]
            simp
          cases n with
          | zero =>
            exfalso
            simp only [rawRun, Except.ok.injEq, Prod.mk.injEq] at hrun
            rw [← hrun.2] at hsd
            have hsd2 : BTreeSeqScanStatus.inMemory = .disk := hst ▸ hsd
            cases hsd2
          | succ m =>
            refine ⟨m + 1, s', ?_, hsd, hsi, hsl, ?_⟩
            · rw [rawRun, hstepEq, hdls]
              rw [rawRun] at hrun
              exact hrun
            · rw [hdd, hdls]
    | cons it restItems =>
      have hcp2 : t.curPage = some ⟨it :: restItems, cp.hikey⟩ := by
        rw [hcp]; cases cp; simp_all
      have hemit := go_emit env t it restItems cp.hikey hcp2
      have hio2 : itemsOk env (it :: restItems) cp.hikey = true := by
        rw [← hitems]; exact hio
      simp only [itemsOk, Bool.and_eq_true] at hio2
      obtain ⟨hdl, hrest⟩ := hio2
      have hgnd : get_next_downlink env t =
          .ok ({t with curPage := some ⟨restItems, cp.hikey⟩},
               some ⟨it.1, nextKeyOf restItems cp.hikey, it.2⟩) := by
        rw [gnd_loaded env t hfp]
        exact hemit
      cases hdlv : it.2 with
      | pending ionum =>
        rw [hdlv] at hdl
        simp [dlOk] at hdl
      | onDisk a =>
        rw [hdlv] at hdl hgnd
        have hiter : iterate_internal_page env t =
            iterate_internal_page env
              {t with curPage := some ⟨restItems, cp.hikey⟩,
                      diskDownlinks := t.diskDownlinks ++ [a]} := by
          rw [iterate_gnd_some env t _ _ hgnd]
        have hstepEq : rawStep env t =
            rawStep env
              {t with curPage := some ⟨restItems, cp.hikey⟩,
                      diskDownlinks := t.diskDownlinks ++ [a]} :=
          rawStep_inMemory_congr env t _ hiter hit hls hst hit hls hst
        have hw2 : intWeight
            {t with curPage := some ⟨restItems, cp.hikey⟩,
                    diskDownlinks := t.diskDownlinks ++ [a]} < w := by
          rw [← hw]
          simp only [intWeight, hcp, hitems]
          simp
        obtain ⟨n, s', hrun, hsd, hsi, hsl, hdd⟩ :=
          ih _ hw2 _ ⟨restItems, cp.hikey⟩ rfl hst hit hfp hls rfl hrest hpo
        have hms : memSlots env
            ((it :: restItems).map Prod.snd ++ pagesDls t.remaining) =
            memSlots env (restItems.map Prod.snd ++ pagesDls t.remaining) := by
          simp only [List.map_cons, List.cons_append, hdlv, memSlots]
        have hda : diskAddrs
            ((it :: restItems).map Prod.snd ++ pagesDls t.remaining) =
            a :: diskAddrs (restItems.map Prod.snd ++ pagesDls t.remaining) := by
          simp only [List.map_cons, List.cons_append, hdlv, diskAddrs]
        cases n with
        | zero =>
          exfalso
          simp only [rawRun, Except.ok.injEq, Prod.mk.injEq] at hrun
          rw [← hrun.2] at hsd
          have hsd2 : BTreeSeqScanStatus.inMemory = .disk := hst ▸ hsd
          cases hsd2
        | succ m =>
          refine ⟨m + 1, s', ?_, hsd, hsi, hsl, ?_⟩
          · rw [rawRun, hstepEq, hms]
            rw [rawRun] at hrun
            exact hrun
          · rw [hdd, hda]
            congr 1
            simp
      | inMemory b =>
        rw [hdlv] at hdl hgnd
        simp only [dlOk, Bool.and_eq_true, decide_eq_true_eq] at hdl
        obtain ⟨hho, hhik⟩ := hdl
        obtain ⟨t2, hload⟩ :=
          loadLeafWithHist_ok env (.mem b)
            {t with curPage := some ⟨restItems, cp.hikey⟩} hho
        have hfields := loadLeafWithHist_fields env (.mem b) _ t2 hload
        have hiter : iterate_internal_page env t = .ok (t2, true) := by
          rw [iterate_gnd_some env t _ _ hgnd]
          dsimp only
          rw [if_pos hhik.symm, hload]
          rfl
        have hstep : rawStep env t = .ok (.cont t2) := by
          rw [rawStep_inMemory env t hit hls hst]
          simp only [hiter]
        have ht2st : t2.status = .inMemory := by rw [hfields.1]; exact hst
        have ht2it : t2.iter = none := by
          rw [hfields.2.2.2.2.2.1]; exact hit
        have ht2fp : t2.firstPageIsLoaded = true := by
          rw [hfields.2.1]; exact hfp
        have ht2cp : t2.curPage = some ⟨restItems, cp.hikey⟩ := by
          rw [hfields.2.2.2.2.1]
        have ht2rem : t2.remaining = t.remaining := by
          rw [hfields.2.2.2.1]
        have ht2dd : t2.diskDownlinks = t.diskDownlinks := by
          rw [hfields.2.2.2.2.2.2.1]
        have ht2ls : t2.leafSlots = (env.leafAt (.mem b)).slots :=
          hfields.2.2.2.2.2.2.2.1
        have hdrain := rawRun_leaf env (env.leafAt (.mem b)).slots t2
          ht2it ht2ls
        have hw2 : intWeight {t2 with leafSlots := []} < w := by
          rw [← hw]
          show intWeight t2 < intWeight t
          simp only [intWeight, hcp, hitems, ht2cp, ht2rem]
          simp
        obtain ⟨n, s', hrun, hsd, hsi, hsl, hdd⟩ :=
          ih _ hw2 _ ⟨restItems, cp.hikey⟩ rfl
            (by show t2.status = _; exact ht2st) ht2it
            (by show t2.firstPageIsLoaded = _; exact ht2fp) rfl
            (by show t2.curPage = _; exact ht2cp) hrest
            (by show pagesOk env t2.remaining _ = true
                rw [ht2rem]; exact hpo)
        have hms : memSlots env
            ((it :: restItems).map Prod.snd ++ pagesDls t.remaining) =
            (env.leafAt (.mem b)).slots ++
              memSlots env (restItems.map Prod.snd ++ pagesDls t.remaining) := by
          simp only [List.map_cons, List.cons_append, hdlv, memSlots]
        have hda : diskAddrs
            ((it :: restItems).map Prod.snd ++ pagesDls t.remaining) =
            diskAddrs (restItems.map Prod.snd ++ pagesDls t.remaining) := by
          simp only [List.map_cons, List.cons_append, hdlv, diskAddrs]
        refine ⟨((env.leafAt (.mem b)).slots.length + n) + 1, s', ?_,
          hsd, hsi, hsl, ?_⟩
        · rw [rawRun]
          simp only [hstep]
          rw [hms, List.map_append, ← ht2rem,
            rawRun_append env _ n t2 _ _ hdrain, hrun]
          rfl
        · rw [hda, ← ht2rem, ← ht2dd]
          exact hdd

theorem load_next_disk_cons (env : Env) (t : ScanState) (a : Nat)
    (rest : List Nat) (hdd : t.diskDownlinks = a :: rest)
    (hha : histOk env (.dsk a) = true) :
    ∃ t2, load_next_disk_leaf_page env t = .ok (t2, true) ∧
      t2.status = t.status ∧ t2.iter = t.iter ∧
      t2.leafSlots = (env.leafAt (.dsk a)).slots ∧
      t2.diskDownlinks = rest := by
  obtain ⟨t2, hl⟩ :=
    loadLeafWithHist_ok env (.dsk a) {t with diskDownlinks := rest} hha
  have hf := loadLeafWithHist_fields env (.dsk a) _ t2 hl
  refine ⟨t2, ?_, ?_, ?_, hf.2.2.2.2.2.2.2.1, ?_⟩
  · unfold load_next_disk_leaf_page
    simp only [hdd]
    rw [hl]
    rfl
  · rw [hf.1]
  · rw [hf.2.2.2.2.2.1]
  · rw [hf.2.2.2.2.2.2.1]

theorem rawStep_disk (env : Env) (t : ScanState) (hit : t.iter = none)
    (hls : t.leafSlots = []) (hst : t.status = .disk) :
    rawStep env t =
      (match load_next_disk_leaf_page env t with
       | .error e => .error e
       | .ok (s1, true) => .ok (.cont s1)
       | .ok (s1, false) =>
         .ok (.yield {s1 with status := .finished} none none)) := by
  unfold rawStep
  simp only [hit, hls, hst]

theorem rawStep_finished (env : Env) (t : ScanState) (hit : t.iter = none)
    (hls : t.leafSlots = []) (hst : t.status = .finished) :
    rawStep env t = .ok (.yield t none none) := by
  unfold rawStep
  simp only [hit, hls, hst]

/-- The raw disk phase: the run consumes the leaf cursor, then each
batched page's slots in batch order, then yields the final null tuple
while setting Finished; at Finished every further call yields null with
the state unchanged. -/
theorem rawRun_disk (env : Env) :
    ∀ (ds : List Nat) (t : ScanState), t.status = .disk → t.iter = none →
      t.diskDownlinks = ds →
      (∀ a ∈ ds, histOk env (.dsk a) = true) →
      ∃ n s',
        rawRun env n t =
          .ok ((t.leafSlots ++
            ds.flatMap (fun a => (env.leafAt (.dsk a)).slots)).map tagPair
            ++ [(none, none)], s') ∧
        s'.status = .finished ∧ s'.iter = none ∧
        rawStep env s' = .ok (.yield s' none none) := by
  intro ds
  induction ds with
  | nil =>
    intro t hst hit hdd hall
    have hdrain := rawRun_leaf env t.leafSlots t hit rfl
    have hload : load_next_disk_leaf_page env {t with leafSlots := []} =
        .ok ({t with leafSlots := []}, false) := by
      unfold load_next_disk_leaf_page
      simp only [hdd]
    have hstep : rawStep env {t with leafSlots := []} =
        .ok (.yield {t with leafSlots := [], status := .finished}
          none none) := by
      rw [rawStep_disk env {t with leafSlots := []} hit rfl hst]
      simp only [hload]
    have h1 : rawRun env 1 {t with leafSlots := []} =
        .ok ([(none, none)], {t with leafSlots := [], status := .finished}) := by
      rw [rawRun]
      simp only [hstep]
      rw [rawRun]
      rfl
    refine ⟨t.leafSlots.length + 1,
      {t with leafSlots := [], status := .finished}, ?_, rfl, hit, ?_⟩
    · rw [rawRun_append env t.leafSlots.length 1 t _ _ hdrain, h1]
      simp [Except.map]
    · exact rawStep_finished env _ hit rfl rfl
  | cons a rest ih =>
    intro t hst hit hdd hall
    have hdrain := rawRun_leaf env t.leafSlots t hit rfl
    have hha : histOk env (.dsk a) = true := hall a (by simp)
    obtain ⟨t2, hload, ht2st, ht2it, ht2ls, ht2dd⟩ :=
      load_next_disk_cons env {t with leafSlots := []} a rest hdd hha
    have hstep : rawStep env {t with leafSlots := []} = .ok (.cont t2) := by
      rw [rawStep_disk env {t with leafSlots := []} hit rfl hst]
      simp only [hload]
    obtain ⟨n, s', hrun, hsf, hsi, hlast⟩ :=
      ih t2 (by rw [ht2st]; exact hst) (by rw [ht2it]; exact hit) ht2dd
        (fun x hx => hall x (by simp [hx]))
    rw [ht2ls] at hrun
    refine ⟨t.leafSlots.length + (1 + n), s', ?_, hsf, hsi, hlast⟩
    rw [rawRun_append env t.leafSlots.length (1 + n) t _ _ hdrain,
      show 1 + n = n + 1 from Nat.add_comm 1 n, rawRun]
    simp only [hstep]
    rw [hrun]
    simp [Except.map, List.map_append, List.append_assoc]

theorem memSlots_diskAddrs_perm (env : Env) :
    ∀ ds : List Downlink,
      (memSlots env ds ++
        (diskAddrs ds).flatMap (fun a => (env.leafAt (.dsk a)).slots)).Perm
      (ds.flatMap (dlAllSlots env)) := by
  intro ds
  induction ds with
  | nil => simp [memSlots, diskAddrs]
  | cons d rest ih =>
    cases d with
    | inMemory b =>
      simp only [memSlots, diskAddrs, List.flatMap_cons, dlAllSlots]
      rw [List.append_assoc]
      exact List.Perm.append_left _ ih
    | onDisk a =>
      simp only [memSlots, diskAddrs, List.flatMap_cons, dlAllSlots]
      exact (List.perm_append_comm_assoc _ _ _).trans
        (List.Perm.append_left _ ih)
    | pending i =>
      simp only [memSlots, diskAddrs, dlAllSlots, List.flatMap_cons]
      simpa using ih

theorem flatMap_sortLe_perm (addrs : List Nat) (f : Nat → List Slot) :
    ((sortLe natLeB addrs).flatMap f).Perm (addrs.flatMap f) := by
  rw [List.flatMap_def, List.flatMap_def]
  exact ((sortLe_perm natLeB addrs).map f).flatten

theorem tagPair_facts (l : List Slot) (p : Option Slot × Option Slot)
    (hp : p ∈ l.map tagPair ++ [((none : Option Slot), (none : Option Slot))]) :
    (∀ x : Slot, p.2 = some x → p.1 = if x.deleted then none else some x) ∧
    (p.2 = none → p.1 = none) := by
  rcases List.mem_append.mp hp with hp | hp
  · obtain ⟨x, hx, hpx⟩ := List.mem_map.mp hp
    subst hpx
    constructor
    · intro y hy
      simp only [tagPair] at hy ⊢
      cases hy
      rfl
    · intro hy
      simp [tagPair] at hy
  · simp only [List.mem_singleton] at hp
    subst hp
    exact ⟨fun x hx => (by cases hx), fun _ => rfl⟩

theorem filterMap_tagPair (l : List Slot) :
    (l.map tagPair ++
      [((none : Option Slot), (none : Option Slot))]).filterMap Prod.snd
      = l := by
  rw [List.filterMap_append]
  have h1 : (l.map tagPair).filterMap Prod.snd = l := by
    induction l with
    | nil => rfl
    | cons x xs ih =>
      simp only [List.map_cons, List.filterMap_cons]
      rw [show (tagPair x).2 = some x from rfl]
      rw [ih]
  rw [h1]
  simp

/-- The full raw run from a loaded in-memory position: leaf cursor, then
every in-memory leaf, then (after the disk switch) the batched on-disk
leaves in sorted order, then the final null yield at Finished. -/
theorem rawRun_full (env : Env) (t : ScanState) (cp : CurIntPage)
    (hst : t.status = .inMemory) (hit : t.iter = none)
    (hfp : t.firstPageIsLoaded = true) (hcp : t.curPage = some cp)
    (hio : itemsOk env cp.items cp.hikey = true)
    (hpo : pagesOk env t.remaining cp.hikey = true)
    (hdd0 : ∀ a ∈ t.diskDownlinks, histOk env (.dsk a) = true) :
    ∃ n sf,
      rawRun env n t =
        .ok ((t.leafSlots ++
          (memSlots env (cp.items.map Prod.snd ++ pagesDls t.remaining) ++
          (sortLe natLeB (t.diskDownlinks ++
            diskAddrs (cp.items.map Prod.snd ++
              pagesDls t.remaining))).flatMap
            (fun a => (env.leafAt (.dsk a)).slots))).map tagPair
          ++ [(none, none)], sf) ∧
      sf.status = .finished ∧ sf.iter = none ∧
      rawStep env sf = .ok (.yield sf none none) := by
  have hdrain := rawRun_leaf env t.leafSlots t hit rfl
  obtain ⟨n1, s', hrun1, hsd, hsi, hsl, hdd⟩ :=
    rawRun_inMemory env (intWeight {t with leafSlots := []})
      {t with leafSlots := []} cp rfl hst hit hfp rfl hcp hio hpo
  have hallds : ∀ a ∈ s'.diskDownlinks, histOk env (.dsk a) = true := by
    intro a ha
    rw [hdd] at ha
    rw [sortLe_mem] at ha
    rcases List.mem_append.mp ha with ha | ha
    · exact hdd0 a ha
    · rw [diskAddrs_append] at ha
      rcases List.mem_append.mp ha with ha | ha
      · exact itemsOk_diskAddrs env cp.items cp.hikey hio a ha
      · exact pagesOk_diskAddrs env t.remaining cp.hikey hpo a ha
  obtain ⟨n2, sf, hrun2, hsf, hsfi, hlast⟩ :=
    rawRun_disk env s'.diskDownlinks s' hsd hsi rfl hallds
  rw [hsl] at hrun2
  rw [hdd] at hrun2
  refine ⟨t.leafSlots.length + (n1 + n2), sf, ?_, hsf, hsfi, hlast⟩
  rw [rawRun_append env t.leafSlots.length (n1 + n2) t _ _ hdrain,
    rawRun_append env n1 n2 _ _ _ hrun1, hrun2]
  simp [Except.map, List.map_append, List.append_assoc]

/-- Scan creation over a single-leaf tree (any undo outcome on the
root): the leaf is loaded directly and the scan stays InMemory with an
empty batch. -/
theorem make_single_leaf (env : Env) (hint : env.intPages = [])
    (hho : histOk env .root = true) :
    ∃ s0, make_btree_seq_scan env = .ok s0 ∧
      s0.status = .inMemory ∧ s0.iter = none ∧
      s0.firstPageIsLoaded = true ∧ s0.curPage = some ⟨[], none⟩ ∧
      s0.remaining = [] ∧ s0.diskDownlinks = [] ∧
      s0.leafSlots = (env.leafAt .root).slots ∧
      s0.isSingleLeafPage = true := by
  cases hh : env.histAt .root with
  | error e =>
    unfold histOk at hho
    simp only [hh] at hho
    cases hho
  | ok l =>
    cases l with
    | nil =>
      have hload : load_next_internal_page env (makeInitState env) =
          .ok ({c7Made env with isSingleLeafPage := false}, false) := by
        unfold load_next_internal_page
        dsimp only [makeInitState]
        simp only [hint]
        unfold loadLeafWithHist
        simp only [hh]
        rfl
      have hgnd : get_next_downlink env (makeInitState env) =
          .ok (c7Made env, none) := by
        unfold get_next_downlink
        rw [if_neg (by simp [makeInitState])]
        simp only [hload]
        rfl
      have hiter : iterate_internal_page env (makeInitState env) =
          .ok (c7Made env, false) :=
        iterate_gnd_none env _ (c7Made env) hgnd
      have hmake : make_btree_seq_scan env = .ok (c7Made env) := by
        unfold make_btree_seq_scan
        simp only [hiter]
        rfl
      exact ⟨c7Made env, hmake, rfl, rfl, rfl, rfl, rfl, rfl, rfl, rfl⟩
    | cons hgp hq =>
      have hload : load_next_internal_page env (makeInitState env) =
          .ok ({c7Made env with isSingleLeafPage := false,
                                haveHistImg := true, histSlots := hgp.slots,
                                histHikey := hgp.hikey, histQueue := hq},
               false) := by
        unfold load_next_internal_page
        dsimp only [makeInitState]
        simp only [hint]
        unfold loadLeafWithHist
        simp only [hh]
        rfl
      have hgnd : get_next_downlink env (makeInitState env) =
          .ok ({c7Made env with haveHistImg := true, histSlots := hgp.slots,
                                histHikey := hgp.hikey, histQueue := hq},
               none) := by
        unfold get_next_downlink
        rw [if_neg (by simp [makeInitState])]
        simp only [hload]
        rfl
      have hiter : iterate_internal_page env (makeInitState env) =
          .ok ({c7Made env with haveHistImg := true, histSlots := hgp.slots,
                                histHikey := hgp.hikey, histQueue := hq},
               false) :=
        iterate_gnd_none env _ _ hgnd
      have hmake : make_btree_seq_scan env =
          .ok ({c7Made env with haveHistImg := true, histSlots := hgp.slots,
                                histHikey := hgp.hikey, histQueue := hq}) := by
        unfold make_btree_seq_scan
        simp only [hiter]
        rfl
      exact ⟨_, hmake, rfl, rfl, rfl, rfl, rfl, rfl, rfl, rfl⟩

theorem load_next_internal_page_cons_true (env : Env) (s : ScanState)
    (P : IntPageM) (rest : List IntPageM) (hrem : s.remaining = P :: rest)
    (s1 : ScanState) (b : Bool)
    (h : load_next_internal_page env s = .ok (s1, b)) : b = true := by
  unfold load_next_internal_page at h
  rw [hrem] at h
  dsimp only at h
  split at h <;> (try split at h) <;>
    (simp only [scan_make_iterator, Except.ok.injEq, Prod.mk.injEq] at h
     exact h.2.symm)

theorem load_next_internal_page_fields2 (env : Env) (s s1 : ScanState)
    (b : Bool) (h : load_next_internal_page env s = .ok (s1, b)) :
    s1.isSingleLeafPage = s.isSingleLeafPage ∧
    s1.firstPageIsLoaded = true := by
  unfold load_next_internal_page at h
  dsimp only at h
  split at h
  · split at h
    · rename_i hc
      simp only [Except.ok.injEq, Prod.mk.injEq] at h
      rw [← h.1]
      exact ⟨rfl, hc⟩
    · obtain ⟨s2, hl, hf⟩ := except_map_ok _ _ _ h
      have hff := loadLeafWithHist_fields env _ _ s2 hl
      simp only [Prod.mk.injEq] at hf
      rw [← hf.1]
      refine ⟨?_, ?_⟩
      · rw [hff.2.2.1]
      · rw [hff.2.1]
  · split at h
    · simp only [Except.ok.injEq, Prod.mk.injEq] at h
      rw [← h.1]
      exact ⟨rfl, rfl⟩
    · split at h
      · simp only [Except.ok.injEq, Prod.mk.injEq] at h
        rw [← h.1]
        exact ⟨rfl, rfl⟩
      · simp only [scan_make_iterator, Except.ok.injEq, Prod.mk.injEq] at h
        rw [← h.1]
        exact ⟨rfl, rfl⟩

theorem go_fields2 (env : Env) :
    ∀ m s s1 r, s.remaining.length = m → s.firstPageIsLoaded = true →
      get_next_downlink_go env s = .ok (s1, r) →
      s1.isSingleLeafPage = s.isSingleLeafPage ∧
      s1.firstPageIsLoaded = true := by
  intro m
  induction m using Nat.strong_induction_on with
  | _ m ih =>
    intro s s1 r hm hfp h
    rw [get_next_downlink_go] at h
    split at h
    · simp only [Except.ok.injEq, Prod.mk.injEq] at h
      rw [← h.1]
      exact ⟨rfl, hfp⟩
    · rename_i cp hcp
      split at h
      · simp only [Except.ok.injEq, Prod.mk.injEq] at h
        rw [← h.1]
        exact ⟨rfl, hfp⟩
      · split at h
        · simp only [Except.ok.injEq, Prod.mk.injEq] at h
          rw [← h.1]
          exact ⟨rfl, hfp⟩
        · split at h
          · simp only [Except.ok.injEq, Prod.mk.injEq] at h
            rw [← h.1]
            exact ⟨rfl, hfp⟩
          · rename_i P rest hrem
            split at h
            · cases h
            · rename_i s2 hload
              have hbt := load_next_internal_page_cons_true env s P rest
                hrem s2 false hload
              cases hbt
            · rename_i s2 hload
              have hf2 := load_next_internal_page_fields2 env s s2 true hload
              split at h
              · simp only [Except.ok.injEq, Prod.mk.injEq] at h
                rw [← h.1]
                exact hf2
              · have hrlen : s2.remaining = rest :=
                  load_next_internal_page_remaining env s P rest hrem s2
                    true hload
                have hrec := ih rest.length (by rw [← hm, hrem]; simp)
                  s2 s1 r (by rw [hrlen]) hf2.2 h
                exact ⟨hrec.1.trans hf2.1, hrec.2⟩

theorem gnd_fields2 (env : Env) (s s1 : ScanState) (r : Option DownlinkOut)
    (hfp : s.firstPageIsLoaded = true)
    (h : get_next_downlink env s = .ok (s1, r)) :
    s1.isSingleLeafPage = s.isSingleLeafPage ∧
    s1.firstPageIsLoaded = true := by
  rw [gnd_loaded env s hfp] at h
  exact go_fields2 env s.remaining.length s s1 r rfl hfp h

theorem iterate_isSingle (env : Env) :
    ∀ w s s1 b, intWeight s = w → s.firstPageIsLoaded = true →
      iterate_internal_page env s = .ok (s1, b) →
      s1.isSingleLeafPage = s.isSingleLeafPage ∧
      s1.firstPageIsLoaded = true := by
  intro w
  induction w using Nat.strong_induction_on with
  | _ w ih =>
    intro s s1 b hw hfp h
    cases hgnd : get_next_downlink env s with
    | error e =>
      rw [iterate_internal_page] at h
      split at h <;> rename_i heq <;> rw [hgnd] at heq <;> cases heq
      · cases h
    | ok pr =>
      obtain ⟨s2, r⟩ := pr
      have hf2 := gnd_fields2 env s s2 r hfp hgnd
      cases r with
      | none =>
        rw [iterate_gnd_none env s s2 hgnd] at h
        simp only [Except.ok.injEq, Prod.mk.injEq] at h
        rw [← h.1]
        exact hf2
      | some dlo =>
        rw [iterate_gnd_some env s s2 dlo hgnd] at h
        have hwlt := (get_next_downlink_weight env s s2 (some dlo) hgnd).2
          (by simp)
        cases hdl : dlo.dlink with
        | onDisk a =>
          simp only [hdl] at h
          have heqw : intWeight
              {s2 with diskDownlinks := s2.diskDownlinks ++ [a]} =
              intWeight s2 := rfl
          have hrec := ih (intWeight
              {s2 with diskDownlinks := s2.diskDownlinks ++ [a]})
            (by omega) _ s1 b rfl hf2.2 h
          exact ⟨hrec.1.trans hf2.1, hrec.2⟩
        | inMemory bk =>
          simp only [hdl] at h
          split at h
          · obtain ⟨s3, hl, hfx⟩ := except_map_ok _ _ _ h
            have hff := loadLeafWithHist_fields env _ _ s3 hl
            simp only [Prod.mk.injEq] at hfx
            rw [← hfx.1]
            exact ⟨hff.2.2.1.trans hf2.1, by rw [hff.2.1]; exact hf2.2⟩
          · simp only [scan_make_iterator, Except.ok.injEq,
              Prod.mk.injEq] at h
            rw [← h.1]
            exact hf2
        | pending io2 =>
          simp only [hdl] at h
          simp only [scan_make_iterator, Except.ok.injEq, Prod.mk.injEq] at h
          rw [← h.1]
          exact hf2

theorem iterate_false_iter_none (env : Env) :
    ∀ w s s1, intWeight s = w →
      iterate_internal_page env s = .ok (s1, false) → s1.iter = none := by
  intro w
  induction w using Nat.strong_induction_on with
  | _ w ih =>
    intro s s1 hw h
    cases hgnd : get_next_downlink env s with
    | error e =>
      rw [iterate_internal_page] at h
      split at h <;> rename_i heq <;> rw [hgnd] at heq <;> cases heq
      · cases h
    | ok pr =>
      obtain ⟨s2, r⟩ := pr
      cases r with
      | none =>
        rw [iterate_gnd_none env s s2 hgnd] at h
        simp only [Except.ok.injEq, Prod.mk.injEq] at h
        obtain ⟨h1, h2⟩ := h
        rw [← h1]
        cases hso : s2.iter with
        | none => rfl
        | some it => rw [hso] at h2; cases h2
      | some dlo =>
        rw [iterate_gnd_some env s s2 dlo hgnd] at h
        have hwlt := (get_next_downlink_weight env s s2 (some dlo) hgnd).2
          (by simp)
        cases hdl : dlo.dlink with
        | onDisk a =>
          simp only [hdl] at h
          have heqw : intWeight
              {s2 with diskDownlinks := s2.diskDownlinks ++ [a]} =
              intWeight s2 := rfl
          exact ih (intWeight
              {s2 with diskDownlinks := s2.diskDownlinks ++ [a]})
            (by omega) _ s1 rfl h
        | inMemory bk =>
          simp only [hdl] at h
          split at h
          · obtain ⟨s3, hl, hfx⟩ := except_map_ok _ _ _ h
            simp only [Prod.mk.injEq] at hfx
            cases hfx.2
          · simp only [scan_make_iterator, Except.ok.injEq,
              Prod.mk.injEq] at h
            cases h.2
        | pending io2 =>
          simp only [hdl] at h
          simp only [scan_make_iterator, Except.ok.injEq, Prod.mk.injEq] at h
          cases h.2

/-- The scan state right after the first internal page of a multi-page
tree has been located at creation. -/
def multiInit (env : Env) (P : IntPageM) (ps : List IntPageM) : ScanState :=
  { status := .inMemory, firstPageIsLoaded := true, isSingleLeafPage := false,
    remaining := ps, curPage := some ⟨intPageItems none P, P.hikey⟩,
    prevHikey := none, leafSlots := [], leafHikey := none,
    haveHistImg := false, histSlots := [], histHikey := none,
    histQueue := [], iter := none, diskDownlinks := [] }

/-- Creation and the whole raw run over a multi-page tree: the scan
creation's own first in-memory iteration is the first step (or two) of
the run, and the remaining run consumes exactly every leaf under the
level-1 downlinks. -/
theorem make_multi_run (env : Env) (P : IntPageM) (ps : List IntPageM)
    (hint : env.intPages = P :: ps)
    (hio : itemsOk env (intPageItems none P) P.hikey = true)
    (hpo : pagesOk env ps P.hikey = true) :
    ∃ s0 n outs sf,
      make_btree_seq_scan env = .ok s0 ∧
      rawRun env n s0 = .ok (outs, sf) ∧
      sf.status = .finished ∧ sf.iter = none ∧
      rawStep env sf = .ok (.yield sf none none) ∧
      outs.filterMap Prod.snd =
        memSlots env ((intPageItems none P).map Prod.snd ++ pagesDls ps) ++
          (sortLe natLeB (diskAddrs ((intPageItems none P).map Prod.snd ++
            pagesDls ps))).flatMap (fun a => (env.leafAt (.dsk a)).slots) ∧
      (∀ p ∈ outs, ∀ x : Slot, p.2 = some x →
        p.1 = if x.deleted then none else some x) ∧
      (∀ p ∈ outs, p.2 = none → p.1 = none) := by
  have hload : load_next_internal_page env (makeInitState env) =
      .ok (multiInit env P ps, true) := by
    unfold load_next_internal_page
    dsimp only [makeInitState]
    simp only [hint]
    rfl
  have hgndEq : get_next_downlink env (makeInitState env) =
      get_next_downlink env (multiInit env P ps) := by
    unfold get_next_downlink
    rw [if_neg (by simp [makeInitState]),
      if_pos (show (multiInit env P ps).firstPageIsLoaded = true from rfl)]
    simp only [hload]
    rw [if_neg (by simp [multiInit])]
  have hiterEq := iterate_congr env (makeInitState env)
    (multiInit env P ps) hgndEq
  obtain ⟨N, sf, hrunFull, hsf, hsfi, hlast⟩ :=
    rawRun_full env (multiInit env P ps) ⟨intPageItems none P, P.hikey⟩
      rfl rfl rfl rfl hio hpo
      (by intro a ha; exact absurd ha (by simp [multiInit]))
  have hfm : (((multiInit env P ps).leafSlots ++
      (memSlots env ((intPageItems none P).map Prod.snd ++
        pagesDls (multiInit env P ps).remaining) ++
      (sortLe natLeB ((multiInit env P ps).diskDownlinks ++
        diskAddrs ((intPageItems none P).map Prod.snd ++
          pagesDls (multiInit env P ps).remaining))).flatMap
        (fun a => (env.leafAt (.dsk a)).slots))).map tagPair ++
      [((none : Option Slot), (none : Option Slot))]).filterMap Prod.snd =
      memSlots env ((intPageItems none P).map Prod.snd ++ pagesDls ps) ++
        (sortLe natLeB (diskAddrs ((intPageItems none P).map Prod.snd ++
          pagesDls ps))).flatMap (fun a => (env.leafAt (.dsk a)).slots) :=
    filterMap_tagPair _
  cases N with
  | zero =>
    exfalso
    simp only [rawRun, Except.ok.injEq, Prod.mk.injEq] at hrunFull
    rw [← hrunFull.2] at hsf
    cases hsf
  | succ m =>
    rw [rawRun,
      rawStep_inMemory env (multiInit env P ps) rfl rfl rfl] at hrunFull
    cases hiterv : iterate_internal_page env (multiInit env P ps) with
    | error e =>
      rw [hiterv] at hrunFull
      cases hrunFull
    | ok pr =>
      obtain ⟨sA, got⟩ := pr
      cases got with
      | true =>
        simp only [hiterv] at hrunFull
        have hmake : make_btree_seq_scan env = .ok sA := by
          unfold make_btree_seq_scan
          rw [hiterEq]
          simp only [hiterv]
          rfl
        refine ⟨sA, m, _, sf, hmake, hrunFull, hsf, hsfi, hlast, hfm,
          fun p hp => (tagPair_facts _ p hp).1,
          fun p hp => (tagPair_facts _ p hp).2⟩
      | false =>
        simp only [hiterv] at hrunFull
        have hsingle : sA.isSingleLeafPage = false :=
          (iterate_isSingle env (intWeight (multiInit env P ps))
            (multiInit env P ps) sA false rfl rfl hiterv).1
        have hiterNone : sA.iter = none :=
          iterate_false_iter_none env (intWeight (multiInit env P ps))
            (multiInit env P ps) sA rfl hiterv
        have hstep2 := rawStep_disk env (switch_to_disk_scan sA)
          (show (switch_to_disk_scan sA).iter = none from hiterNone) rfl rfl
        have hmakePre : make_btree_seq_scan env =
            (match load_next_disk_leaf_page env (switch_to_disk_scan sA) with
             | .error e => .error e
             | .ok (s2, ok2) =>
               .ok (if ok2 then s2 else {s2 with status := .finished})) := by
          unfold make_btree_seq_scan
          rw [hiterEq]
          simp only [hiterv]
          rw [if_pos (by rw [hsingle]; rfl)]
        cases m with
        | zero =>
          exfalso
          simp only [rawRun, Except.ok.injEq, Prod.mk.injEq] at hrunFull
          rw [← hrunFull.2] at hsf
          cases hsf
        | succ m2 =>
          rw [rawRun, hstep2] at hrunFull
          cases hload2 : load_next_disk_leaf_page env
              (switch_to_disk_scan sA) with
          | error e =>
            rw [hload2] at hrunFull
            cases hrunFull
          | ok pr2 =>
            obtain ⟨s2, ok2⟩ := pr2
            cases ok2 with
            | true =>
              simp only [hload2] at hrunFull
              have hmake : make_btree_seq_scan env = .ok s2 := by
                rw [hmakePre]
                simp only [hload2]
                rfl
              refine ⟨s2, m2, _, sf, hmake, hrunFull, hsf, hsfi, hlast, hfm,
                fun p hp => (tagPair_facts _ p hp).1,
                fun p hp => (tagPair_facts _ p hp).2⟩
            | false =>
              simp only [hload2] at hrunFull
              obtain ⟨pr3, hpr3, hval3⟩ := except_map_ok _ _ _ hrunFull
              simp only [Prod.mk.injEq] at hval3
              have hmake : make_btree_seq_scan env =
                  .ok {s2 with status := .finished} := by
                rw [hmakePre]
                simp only [hload2]
                rfl
              refine ⟨{s2 with status := .finished}, m2, pr3.1, sf, hmake,
                ?_, hsf, hsfi, hlast, ?_, ?_, ?_⟩
              · rw [hpr3, ← hval3.2]
              · have h2 := hfm
                rw [← hval3.1] at h2
                simpa using h2
              · intro p hp
                have hp2 : p ∈ ((none : Option Slot), (none : Option Slot))
                    :: pr3.1 := List.mem_cons_of_mem _ hp
                rw [hval3.1] at hp2
                exact (tagPair_facts _ p hp2).1
              · intro p hp
                have hp2 : p ∈ ((none : Option Slot), (none : Option Slot))
                    :: pr3.1 := List.mem_cons_of_mem _ hp
                rw [hval3.1] at hp2
                exact (tagPair_facts _ p hp2).2

/-- C5: over every well-formed static tree, the raw get-next-tuple-raw
operation yields every physical tuple slot (including deleted ones)
exactly once over the whole scan — the multiset of consumed slots is
exactly the tree's slots — with each returned tuple correctly tagged (a
deleted slot is returned as a null tuple, a live one as itself), the
run ends in the Finished state (after which every further call returns
the null tuple and consumes nothing), and the wrapper's explicit end
flag is true exactly when the scan status is Finished. -/
theorem C5_theorem (env : Env) (hwf : WFRawEnv env = true) :
    ∃ (s0 : ScanState) (n : Nat)
      (outs : List (Option Slot × Option Slot)) (sf : ScanState),
      make_btree_seq_scan env = .ok s0 ∧
      rawRun env n s0 = .ok (outs, sf) ∧
      sf.status = .finished ∧
      (outs.filterMap Prod.snd).Perm (treeSlotsRaw env) ∧
      (∀ p ∈ outs, ∀ x : Slot, p.2 = some x →
        p.1 = if x.deleted then none else some x) ∧
      (∀ p ∈ outs, p.2 = none → p.1 = none) ∧
      rawStep env sf = .ok (.yield sf none none) ∧
      (∀ s : ScanState, getnext_raw_end s = true ↔ s.status = .finished) := by
  cases hint : env.intPages with
  | nil =>
    have hho : histOk env .root = true := by
      unfold WFRawEnv at hwf
      simp only [hint] at hwf
      exact hwf
    obtain ⟨s0, hmake, hst, hit, hfp, hcp, hrem, hdd, hls, hsing⟩ :=
      make_single_leaf env hint hho
    obtain ⟨n, sf, hrun, hsf, hsfi, hlast⟩ :=
      rawRun_full env s0 ⟨[], none⟩ hst hit hfp hcp rfl
        (by rw [hrem]; rfl)
        (by intro a ha; rw [hdd] at ha; cases ha)
    rw [hls, hrem, hdd] at hrun
    refine ⟨s0, n, _, sf, hmake, hrun, hsf, ?_,
      fun p hp => (tagPair_facts _ p hp).1,
      fun p hp => (tagPair_facts _ p hp).2,
      hlast, fun s => by simp [getnext_raw_end]⟩
    rw [filterMap_tagPair]
    unfold treeSlotsRaw
    simp only [hint]
    simp [memSlots, pagesDls, diskAddrs, sortLe]
  | cons P ps =>
    have hwf2 : itemsOk env (intPageItems none P) P.hikey = true ∧
        pagesOk env ps P.hikey = true := by
      unfold WFRawEnv at hwf
      simp only [hint] at hwf
      simpa [Bool.and_eq_true] using hwf
    obtain ⟨s0, n, outs, sf, hmake, hrun, hsf, hsfi, hlast, hfm,
      htag1, htag2⟩ := make_multi_run env P ps hint hwf2.1 hwf2.2
    refine ⟨s0, n, outs, sf, hmake, hrun, hsf, ?_, htag1, htag2, hlast,
      fun s => by simp [getnext_raw_end]⟩
    rw [hfm]
    have hD : (intPageItems none P).map Prod.snd ++ pagesDls ps =
        pagesDls (P :: ps) := by
      rw [intPageItems_map_snd, pagesDls_cons]
    rw [hD]
    unfold treeSlotsRaw
    simp only [hint]
    exact (List.Perm.append_left _ (flatMap_sortLe_perm _ _)).trans
      (memSlots_diskAddrs_perm env _)

/-- The level-1 page of the C5 witness tree: an in-memory downlink and
an on-disk downlink. -/
def c5P : IntPageM :=
  { lokey := none, firstDl := .inMemory 1,
    rest := [(10, .onDisk 7)], hikey := none }

/-- The C5 witness tree: leaf 1 in memory holds a live slot and a
deleted slot below high-key 10, the on-disk leaf at address 7 holds one
live slot. -/
def c5Env : Env :=
  { intPages := [c5P],
    leafAt := fun r =>
      match r with
      | .mem 1 => ⟨[⟨1, 1, false, false⟩, ⟨2, 2, true, false⟩], some 10⟩
      | .dsk 7 => ⟨[⟨10, 3, false, false⟩], none⟩
      | _ => ⟨[], none⟩,
    histAt := fun _ => .ok [], iterOrd := fun _ _ => [],
    iterRaw := fun _ _ => [], visible := fun _ => true }

theorem C5_theorem_witness :
    ∃ (s0 : ScanState) (n : Nat)
      (outs : List (Option Slot × Option Slot)) (sf : ScanState),
      make_btree_seq_scan c5Env = .ok s0 ∧
      rawRun c5Env n s0 = .ok (outs, sf) ∧
      sf.status = .finished ∧
      (outs.filterMap Prod.snd).Perm (treeSlotsRaw c5Env) ∧
      (∀ p ∈ outs, ∀ x : Slot, p.2 = some x →
        p.1 = if x.deleted then none else some x) ∧
      (∀ p ∈ outs, p.2 = none → p.1 = none) ∧
      rawStep c5Env sf = .ok (.yield sf none none) ∧
      (∀ s : ScanState, getnext_raw_end s = true ↔ s.status = .finished) :=
  C5_theorem c5Env rfl

/-- C7 (amended): for every tree consisting of a single leaf page (no
internal level; any undo outcome on the root that the resolver can
serve), scan creation detects the condition (`isSingleLeafPage` is set
by the failed first page load, scan.c:486), scans the leaf directly
(the root leaf's slots are loaded and the status stays InMemory: the
creation-time disk switch at scan.c:932-937 is skipped by the
`single_leaf_page_rel` guard), and the disk-downlink batch stays empty,
so the replay loop never reads a disk page (with an empty batch it
returns exhaustion immediately, for any state); however, once the raw
get-next loop has consumed the leaf's slots, the next iteration calls
`switch_to_disk_scan` unguarded (scan.c:1248/1361) — the status DOES
transiently become Disk, with the still-empty batch — and the iteration
after that moves it to Finished with the final null yield.  The
original claim's "the status never becomes Disk" is false: see the
counterexample. -/
theorem C7_theorem (env : Env) (hint : env.intPages = [])
    (hho : histOk env .root = true) :
    ∃ s0 s1 s2 : ScanState,
      make_btree_seq_scan env = .ok s0 ∧
      s0.status = .inMemory ∧
      s0.isSingleLeafPage = true ∧
      s0.leafSlots = (env.leafAt .root).slots ∧
      s0.diskDownlinks = [] ∧
      (∀ s' : ScanState, s'.diskDownlinks = [] →
        load_next_disk_leaf_page env s' = .ok (s', false)) ∧
      rawRun env s0.leafSlots.length s0 =
        .ok (s0.leafSlots.map tagPair, {s0 with leafSlots := []}) ∧
      rawStep env {s0 with leafSlots := []} = .ok (.cont s1) ∧
      s1.status = .disk ∧
      s1.diskDownlinks = [] ∧
      rawStep env s1 = .ok (.yield s2 none none) ∧
      s2.status = .finished := by
  obtain ⟨s0, hmake, hst, hit, hfp, hcp, hrem, hdd, hls, hsing⟩ :=
    make_single_leaf env hint hho
  have hdrain := rawRun_leaf env s0.leafSlots s0 hit rfl
  have hgo : get_next_downlink_go env {s0 with leafSlots := []} =
      .ok ({s0 with leafSlots := []}, none) :=
    go_exhaust_none env {s0 with leafSlots := []}
      (show s0.curPage = some ⟨[], none⟩ from hcp)
  have hgnd : get_next_downlink env {s0 with leafSlots := []} =
      .ok ({s0 with leafSlots := []}, none) := by
    rw [gnd_loaded env {s0 with leafSlots := []}
      (show s0.firstPageIsLoaded = true from hfp)]
    exact hgo
  have hiter : iterate_internal_page env {s0 with leafSlots := []} =
      .ok ({s0 with leafSlots := []}, false) := by
    have h2 := iterate_gnd_none env _ _ hgnd
    rwa [show ({s0 with leafSlots := []} : ScanState).iter.isSome = false
      from by
        rw [show ({s0 with leafSlots := []} : ScanState).iter = none
          from hit]
        rfl] at h2
  have hstep1 : rawStep env {s0 with leafSlots := []} =
      .ok (.cont (switch_to_disk_scan {s0 with leafSlots := []})) := by
    rw [rawStep_inMemory env {s0 with leafSlots := []}
      (show ({s0 with leafSlots := []} : ScanState).iter = none from hit)
      rfl (show s0.status = .inMemory from hst)]
    simp only [hiter]
  have hdd1 : (switch_to_disk_scan
      {s0 with leafSlots := []}).diskDownlinks = [] := by
    show sortLe natLeB s0.diskDownlinks = []
    rw [hdd]
    rfl
  have hload1 : load_next_disk_leaf_page env
      (switch_to_disk_scan {s0 with leafSlots := []}) =
      .ok (switch_to_disk_scan {s0 with leafSlots := []}, false) := by
    unfold load_next_disk_leaf_page
    simp only [hdd1]
  have hstep2 : rawStep env (switch_to_disk_scan {s0 with leafSlots := []}) =
      .ok (.yield {switch_to_disk_scan {s0 with leafSlots := []} with
        status := .finished} none none) := by
    rw [rawStep_disk env (switch_to_disk_scan {s0 with leafSlots := []})
      (show s0.iter = none from hit) rfl rfl]
    simp only [hload1]
  refine ⟨s0, switch_to_disk_scan {s0 with leafSlots := []},
    {switch_to_disk_scan {s0 with leafSlots := []} with status := .finished},
    hmake, hst, hsing, hls, hdd, ?_, hdrain, hstep1, rfl, hdd1, hstep2, rfl⟩
  intro s' hd
  unfold load_next_disk_leaf_page
  simp only [hd]

theorem C7_theorem_witness :
    ∃ s0 s1 s2 : ScanState,
      make_btree_seq_scan c7Env = .ok s0 ∧
      s0.status = .inMemory ∧
      s0.isSingleLeafPage = true ∧
      s0.leafSlots = (c7Env.leafAt .root).slots ∧
      s0.diskDownlinks = [] ∧
      (∀ s' : ScanState, s'.diskDownlinks = [] →
        load_next_disk_leaf_page c7Env s' = .ok (s', false)) ∧
      rawRun c7Env s0.leafSlots.length s0 =
        .ok (s0.leafSlots.map tagPair, {s0 with leafSlots := []}) ∧
      rawStep c7Env {s0 with leafSlots := []} = .ok (.cont s1) ∧
      s1.status = .disk ∧
      s1.diskDownlinks = [] ∧
      rawStep c7Env s1 = .ok (.yield s2 none none) ∧
      s2.status = .finished :=
  C7_theorem c7Env rfl rfl
